import Mathlib

set_option maxRecDepth 100000

/-!
Verification of the Article Assembly Pipeline and markdown renderer of the
AI-Article-Architect application (source: src/index.tsx).  The TypeScript
source is shallowly embedded: strings are lists of Unicode scalar values
(`List Char`), JavaScript objects used as string-keyed records are ordered
association lists (property insertion order is observable via
`Object.keys`/`Map` iteration, so we keep it), asynchronous external calls
(the generative-AI client) are parameters of type `Except`/`Option`
describing the outcome of each call, and thrown exceptions are `Except`
or `Option` failure values.
-/

namespace ArticleArchitect

/-- Ordered association-list update modelling JavaScript property assignment
`obj[k] = v` (and `Map.prototype.set`): if the key is present its value is
replaced in place, keeping its position; otherwise the pair is appended. -/
def assocSet {κ β : Type} [DecidableEq κ] (r : List (κ × β)) (k : κ) (v : β) :
    List (κ × β) :=
  match r with
  | [] => [(k, v)]
  | (k', v') :: rest => if k' = k then (k', v) :: rest else (k', v') :: assocSet rest k v

/-- Ordered association-list lookup modelling JavaScript property access `obj[k]`. -/
def assocGet {κ β : Type} [DecidableEq κ] (r : List (κ × β)) (k : κ) : Option β :=
  match r with
  | [] => none
  | (k', v') :: rest => if k' = k then some v' else assocGet rest k

/-- Deletion of a key, modelling `delete obj[k]` / an object-store `delete`. -/
def assocDelete {κ β : Type} [DecidableEq κ] (r : List (κ × β)) (k : κ) :
    List (κ × β) :=
  r.filter (fun e => e.1 != k)

/- ### Retry wrapper (src/index.tsx, `withRetry`)

`async function withRetry<T>(fn, retries = 3, delay = 1000) {
   for (let i = 0; i < retries; i++) {
     try { return await fn(); }
     catch (e) { if (i === retries - 1) throw e;
                 await new Promise(res => setTimeout(res, delay * (i + 1))); } }
   throw new Error("Retry logic failed"); }`

The wrapped operation is embedded as `fn : Nat → Except String α`, where
`fn i` is the outcome of the (i+1)-th invocation.  The embedding is
instrumented: it returns the final outcome together with the list of
performed sleep durations (in ms, in order) and the number of invocations
of `fn`, so that the claimed call/backoff discipline is in the model. -/

/-- Loop body of `withRetry`, starting at loop index `i`.  Returns
(outcome, sleep durations performed, number of invocations of `fn`). -/
def withRetryGo {α : Type} (fn : Nat → Except String α) (retries delay i : Nat) :
    Except String α × List Nat × Nat :=
  if i < retries then
    match fn i with
    | .ok a => (.ok a, [], 1)
    | .error e =>
      if i = retries - 1 then (.error e, [], 1)
      else
        let r := withRetryGo fn retries delay (i + 1)
        (r.1, delay * (i + 1) :: r.2.1, r.2.2 + 1)
  else (.error "Retry logic failed", [], 0)
termination_by retries - i

/-- Embedding of `withRetry` (the source defaults are `retries = 3`,
`delay = 1000`). -/
def withRetry {α : Type} (fn : Nat → Except String α) (retries delay : Nat) :
    Except String α × List Nat × Nat :=
  withRetryGo fn retries delay 0

/- ### Image-resolution stage (src/index.tsx, `generateAndStoreImages`) -/

/-- An image-generation task: key (the literal placeholder text), prompt and
optional overlay text (`""` encodes a missing/falsy `overlayText`). -/
structure ImageGenerationTask where
  key : String
  prompt : String
  overlayText : String
deriving DecidableEq, Repr

/-- The prompt actually sent for a task:
`task.overlayText ? \x7b...with the text "..." clearly visible\x7d : task.prompt`. -/
def fullPrompt (t : ImageGenerationTask) : String :=
  if t.overlayText ≠ "" then
    t.prompt ++ ", with the text \"" ++ t.overlayText ++ "\" clearly visible"
  else t.prompt

/-- Embedding of `generateAndStoreImages`.  The external image-generation
capability (the retried `ai.models.generateImages` call together with the
emptiness check on `response.generatedImages`) is the parameter
`api : String → Except String String`, mapping the full prompt to either the
binary payload (base64 text in the source) or a failure.  Each task runs in
order; a per-task failure is caught and recorded as the literal sentinel
`"error"` under that task's key. -/
def generateAndStoreImages (api : String → Except String String)
    (tasks : List ImageGenerationTask) : List (String × String) :=
  tasks.foldl
    (fun results task =>
      match api (fullPrompt task) with
      | .ok payload => assocSet results task.key payload
      | .error _ => assocSet results task.key "error")
    []

/- ### Reference list assembly (src/index.tsx, `finalizeArticle`)

`const groundedReferences = coreReferences
    .filter(chunk => chunk.web && chunk.web.uri)
    .map(chunk => ({ uri: chunk.web.uri, title: chunk.web.title || chunk.web.uri }));
 const uniqueReferences = [...new Map(groundedReferences.map(item => [item.uri, item])).values()];
 const finalReferences = uniqueReferences.slice(0, 7);` -/

/-- Web metadata of a grounding chunk; `""` encodes a missing/falsy field. -/
structure WebInfo where
  uri : String
  title : String
deriving DecidableEq, Repr

/-- A grounding chunk as accumulated from the stream (`chunk.web` may be absent). -/
structure GroundingChunk where
  web : Option WebInfo
deriving DecidableEq, Repr

/-- A reference citation on the assembled article. -/
structure Reference where
  uri : String
  title : String
deriving DecidableEq, Repr

/-- The `filter(chunk => chunk.web && chunk.web.uri).map(...)` pass:
keeps chunks with a truthy `web.uri` and builds `\x7buri, title || uri\x7d`. -/
def groundedReferences (cs : List GroundingChunk) : List Reference :=
  cs.filterMap (fun c =>
    match c.web with
    | some w =>
      if w.uri ≠ "" then some ⟨w.uri, if w.title ≠ "" then w.title else w.uri⟩
      else none
    | none => none)

/-- Building `new Map(entries)`: entries are `set` in order (JS `Map.set`
keeps the position of an existing key and overwrites its value). -/
def jsMapOfEntries (es : List (String × Reference)) : List (String × Reference) :=
  es.foldl (fun m e => assocSet m e.1 e.2) []

/-- The value list `[...map.values()]` of the uri-keyed map of references. -/
def uniqueReferences (rs : List Reference) : List Reference :=
  (jsMapOfEntries (rs.map (fun r => (r.uri, r)))).map (fun e => e.2)

/-- The reference list attached to the assembled article: deduplicated by
uri and truncated by `slice(0, 7)`. -/
def finalReferences (cs : List GroundingChunk) : List Reference :=
  (uniqueReferences (groundedReferences cs)).take 7

/-- Modelled from the spec's words only (for comparison with the source
pipeline): the uris of a list, deduplicated keeping the order of their
first occurrence. -/
def firstOccurrences (us : List String) : List String :=
  us.foldl (fun acc u => if u ∈ acc then acc else acc ++ [u]) []

/- ### Article entity and assembly (src/index.tsx, `finalizeArticle`) -/

/-- A creative direction: style label and 3-color palette. -/
structure CreativeDirection where
  style : String
  palette : List String
deriving DecidableEq, Repr

/-- Fact-check bundle attached to an article. -/
structure FactCheckState where
  status : String
  results : List String
deriving DecidableEq, Repr

/-- The user-input bundle driving the assembly line (DOM form fields). -/
structure UserInput where
  theme : String
  persona : String
  expertPersona : String
  tone : String
  articleType : String
  price : Option Nat
  productDescription : Option String
deriving DecidableEq, Repr

/-- The persisted article entity (the fields of `ArticleHistoryItem` that the
verified claims are about; `html = ""` encodes the cleared/absent markup
cache, exactly as in the source, which stores the empty string).  The
`performance` bundle is kept abstract as its serialized content. -/
structure ArticleHistoryItem where
  id : Nat
  theme : String
  persona : String
  markdown : String
  html : String
  references : List Reference
  coverImage : Option String
  imageMap : List (String × String)
  creativeDirection : Option CreativeDirection
  performance : Option String
  factCheck : FactCheckState
deriving DecidableEq, Repr

/-- Embedding of the article construction in `finalizeArticle`: the cover
image is `generatedImages['cover'] !== 'error' ? generatedImages['cover'] : undefined`
(an absent key is also not `"error"`, hence `undefined` in the source),
references are deduplicated and capped, the markup cache starts cleared
(`html: ''`), the creative direction is `selectedDirection ?? undefined`
and the fact-check bundle starts `\x7bstatus: 'unchecked', results: []\x7d`. -/
def finalizeArticle (now : Nat) (userInput : UserInput) (finalMarkdown : String)
    (coreReferences : List GroundingChunk) (generatedImages : List (String × String))
    (finalImageMap : List (String × String))
    (selectedDirection : Option CreativeDirection) : ArticleHistoryItem :=
  { id := now
    theme := userInput.theme
    persona := userInput.persona
    markdown := finalMarkdown
    html := ""
    references := finalReferences coreReferences
    coverImage :=
      match assocGet generatedImages "cover" with
      | some v => if v ≠ "error" then some v else none
      | none => none
    imageMap := finalImageMap
    creativeDirection := selectedDirection
    performance := none
    factCheck := { status := "unchecked", results := [] } }

/- ### Creative-direction stage failure policy
(src/index.tsx, `generateCreativeDirections` / `generateArticleAssemblyLine`)

On success the stage stores the suggested directions and shows the
selection step (`awaitingChoice`).  The `catch` branch instead calls
`generateArticleAssemblyLine()` directly, which runs core text → decoration
→ images and ends in `finalizeArticle` reading the module variable
`selectedDirection` (src/index.tsx:1692).  That variable is initialised to
`null` (src/index.tsx:109), written by the direction-card click handler
(src/index.tsx:1166) and cleared only by the back-to-outlines button
(src/index.tsx:433); nothing resets it when a new run starts, so at stage
entry it holds whatever the previous interaction left — `none` on a fresh
page load, but the previously chosen direction after an earlier run picked
one.  The stage functions below therefore take the current value of
`selectedDirection` as an explicit state argument. -/

/-- Observable outcome of the creative-direction stage. -/
inductive DirectionStageOutcome where
  | awaitingChoice (directions : List CreativeDirection)
  | assembled (article : ArticleHistoryItem)
deriving DecidableEq, Repr

/-- The assembly line as a function of the outcomes of its AI stages
(core text, decoration, image generation are external-call results that the
orchestrator threads through to `finalizeArticle`). -/
def generateArticleAssemblyLine (now : Nat) (userInput : UserInput)
    (selectedDirection : Option CreativeDirection) (decoratedMarkdown : String)
    (coreReferences : List GroundingChunk) (generatedImages : List (String × String))
    (finalImageMap : List (String × String)) : ArticleHistoryItem :=
  finalizeArticle now userInput decoratedMarkdown coreReferences generatedImages
    finalImageMap selectedDirection

/-- Embedding of the `try/catch` control flow of `generateCreativeDirections`:
on a parsed response the stage renders the choices and waits; on any failure
it falls back to the assembly line with the current value of the module
variable `selectedDirection`. -/
def handleDirectionStage (now : Nat) (userInput : UserInput)
    (selectedDirection : Option CreativeDirection)
    (apiResult : Except String (List CreativeDirection)) (decoratedMarkdown : String)
    (coreReferences : List GroundingChunk) (generatedImages : List (String × String))
    (finalImageMap : List (String × String)) : DirectionStageOutcome :=
  match apiResult with
  | .ok dirs => .awaitingChoice dirs
  | .error _ =>
    .assembled (generateArticleAssemblyLine now userInput selectedDirection
      decoratedMarkdown coreReferences generatedImages finalImageMap)

/- ### Markup-cache discipline (src/index.tsx, save-edit handler, proofread
handler, `renderArticle`) -/

/-- The save-edit click handler's update:
`\x7b ...currentArticle, markdown: newMarkdown, html: '', performance: newPerformance,
factCheck: \x7bstatus: 'unchecked', results: []\x7d \x7d`. -/
def saveEditUpdate (a : ArticleHistoryItem) (newMarkdown : String)
    (newPerformance : Option String) : ArticleHistoryItem :=
  { a with
    markdown := newMarkdown
    html := ""
    performance := newPerformance
    factCheck := { status := "unchecked", results := [] } }

/-- The proofread handler's update:
`\x7b ...currentArticle, markdown: proofreadMarkdown, html: '' \x7d`. -/
def proofreadUpdate (a : ArticleHistoryItem) (proofreadMarkdown : String) :
    ArticleHistoryItem :=
  { a with markdown := proofreadMarkdown, html := "" }

/-- The cache-filling step of `renderArticle`, parameterized over the
deterministic renderer:
`if (!article.html) \x7b article.html = renderMarkdownToHtml(article.markdown); ...persist \x7d`. -/
def renderArticleCacheStep (render : String → String) (a : ArticleHistoryItem) :
    ArticleHistoryItem :=
  if a.html = "" then { a with html := render a.markdown } else a

/-- The cache invariant claimed by the spec: the markup cache, whenever
present, is exactly the rendering of the current markdown body. -/
def markupCacheInv (render : String → String) (a : ArticleHistoryItem) : Prop :=
  a.html ≠ "" → a.html = render a.markdown

/- ### History eviction (src/index.tsx, `addArticleToHistory`)

`const \x7b coverImage, imageMap, ...itemWithoutImages \x7d = item;
 await saveImagesToDb(item.id, coverImage, imageMap);
 articles.unshift(itemWithoutImages);
 if (articles.length > 50) \x7b
   const oldestItem = articles.pop();
   if (oldestItem) \x7b await deleteImagesFromDb(oldestItem.id); \x7d \x7d
 saveArticlesToStorage();` -/

/-- Metadata record of an article in the history list (binary assets split off). -/
structure ArticleMeta where
  id : Nat
  theme : String
deriving DecidableEq, Repr

/-- Binary-asset record stored in the separate object store, keyed by article id. -/
structure ImageRecord where
  coverImage : Option String
  imageMap : List (String × String)
deriving DecidableEq, Repr

/-- The persisted history state: metadata list (newest first, as `unshift`
adds to the front) plus the id-keyed binary-asset store. -/
structure HistoryState where
  articles : List ArticleMeta
  imageDb : List (Nat × ImageRecord)
deriving DecidableEq, Repr

/-- Embedding of `addArticleToHistory`: store the binary assets, prepend the
metadata, and on overflow past 50 pop the last (oldest) metadata record and
delete its binary-asset record. -/
def addArticleToHistory (st : HistoryState) (meta : ArticleMeta)
    (images : ImageRecord) : HistoryState :=
  let db := assocSet st.imageDb meta.id images
  let arts := meta :: st.articles
  if arts.length > 50 then
    match arts.getLast? with
    | some oldest => { articles := arts.dropLast, imageDb := assocDelete db oldest.id }
    | none => { articles := arts, imageDb := db }
  else { articles := arts, imageDb := db }

/- ### Hallucination filter of the core-text stage
(src/index.tsx, `step1_generateCoreText`)

`const processedMarkdown = fullText.trim().replace(
   /\[([^\]]+)\]\((https?:\/\/[^\s\)]+)\)/g,
   (match, text, url) => validUris.has(url) ? match : text);`

The global regex replace is embedded as a left-to-right scan: at each
position the pattern is tried; on a match the replacement is emitted and
scanning resumes after the match, otherwise one character is copied. -/

/-- Char class `[^\]]` of the link-text capture group. -/
def isLinkTextChar (c : Char) : Bool := c != ']'

/-- JavaScript regex `\s` (ECMA-262 WhiteSpace ∪ LineTerminator). -/
def isJsRegexSpace (c : Char) : Bool :=
  let n := c.toNat
  (9 ≤ n && n ≤ 13) || n = 32 || n = 160 || n = 5760 ||
    (8192 ≤ n && n ≤ 8202) || n = 8232 || n = 8233 || n = 8239 ||
    n = 8287 || n = 12288 || n = 65279

/-- Char class `[^\s\)]` of the url capture group. -/
def isUrlChar (c : Char) : Bool := !(isJsRegexSpace c) && c != ')'

/-- Literal matcher: `stripLit lit s` strips the literal `lit` off the front
of `s`, returning the remainder. -/
def stripLit : List Char → List Char → Option (List Char)
  | [], s => some s
  | _ :: _, [] => none
  | c :: cs, x :: xs => if x = c then stripLit cs xs else none

/-- The literal `https://`. -/
def httpsLit : List Char := ['h', 't', 't', 'p', 's', ':', '/', '/']

/-- The literal `http://`. -/
def httpLit : List Char := ['h', 't', 't', 'p', ':', '/', '/']

/-- Matcher of `https?:\/\/`: the optional `s?` is greedy but the two
alternatives are mutually exclusive in front of the mandatory `://`. -/
def stripHttp (s : List Char) : Option (List Char × List Char) :=
  match stripLit httpsLit s with
  | some r => some (httpsLit, r)
  | none =>
    match stripLit httpLit s with
    | some r => some (httpLit, r)
    | none => none

/-- Matcher of `(https?:\/\/[^\s\)]+)\)` (the url group needs at least one
character after the protocol; the greedy run must be followed by `)`). -/
def tryMatchUrl (s : List Char) : Option (List Char × List Char) :=
  match stripHttp s with
  | some (proto, s4) =>
    match s4.takeWhile isUrlChar, s4.dropWhile isUrlChar with
    | [], _ => none
    | u0 :: us, d :: s6 => if d = ')' then some (proto ++ u0 :: us, s6) else none
    | _, _ => none
  | none => none

/-- Matcher of the whole pattern `\[([^\]]+)\]\((https?:\/\/[^\s\)]+)\)` at
the head of the input; returns (link text, url, rest of input). -/
def tryMatchLink (s : List Char) : Option (List Char × List Char × List Char) :=
  match s with
  | [] => none
  | c :: s1 =>
    if c = '[' then
      match s1.takeWhile isLinkTextChar, s1.dropWhile isLinkTextChar with
      | t0 :: ts, d0 :: d1 :: s3 =>
        if d0 = ']' ∧ d1 = '(' then
          match tryMatchUrl s3 with
          | some (url, s5) => some (t0 :: ts, url, s5)
          | none => none
        else none
      | _, _ => none
    else none

/-- The source text of a markdown link `[text](url)`. -/
def mdLink (text url : List Char) : List Char :=
  '[' :: text ++ [']', '('] ++ url ++ [')']

theorem stripLit_length {lit s r : List Char} (h : stripLit lit s = some r) :
    r.length + lit.length = s.length := by
  induction lit generalizing s with
  | nil =>
    simp only [stripLit, Option.some_inj] at h
    subst h
    simp
  | cons c cs ih =>
    match s with
    | [] => simp [stripLit] at h
    | x :: xs =>
      simp only [stripLit] at h
      split at h
      · have := ih h
        simp only [List.length_cons]
        omega
      · exact absurd h (by simp)

theorem stripHttp_length {s proto r : List Char}
    (h : stripHttp s = some (proto, r)) : r.length ≤ s.length := by
  unfold stripHttp at h
  rcases h1 : stripLit httpsLit s with _ | r1 <;> rw [h1] at h
  · rcases h2 : stripLit httpLit s with _ | r2 <;> rw [h2] at h
    · simp at h
    · simp only [Option.some_inj, Prod.mk.injEq] at h
      obtain ⟨-, hr⟩ := h
      subst hr
      have := stripLit_length h2
      omega
  · simp only [Option.some_inj, Prod.mk.injEq] at h
    obtain ⟨-, hr⟩ := h
    subst hr
    have := stripLit_length h1
    omega

theorem tryMatchUrl_length {s u r : List Char} (h : tryMatchUrl s = some (u, r)) :
    r.length < s.length := by
  unfold tryMatchUrl at h
  rcases hh : stripHttp s with _ | ⟨proto, s4⟩ <;> rw [hh] at h
  · simp at h
  · dsimp only at h
    have hs4 : s4.length ≤ s.length := stripHttp_length hh
    have hdrop : (s4.dropWhile isUrlChar).length ≤ s4.length :=
      (List.dropWhile_suffix isUrlChar).length_le
    rcases hta : s4.takeWhile isUrlChar with _ | ⟨u0, us⟩ <;>
      rcases hdr : s4.dropWhile isUrlChar with _ | ⟨d, s6⟩ <;>
      rw [hta, hdr] at h <;> try dsimp only at h
    all_goals try exact Option.noConfusion h
    by_cases hd : d = ')'
    · rw [if_pos hd] at h
      simp only [Option.some_inj, Prod.mk.injEq] at h
      obtain ⟨-, hr⟩ := h
      subst hr
      rw [hdr] at hdrop
      simp only [List.length_cons] at hdrop
      omega
    · rw [if_neg hd] at h
      simp at h

theorem tryMatchLink_length {s t u r : List Char}
    (h : tryMatchLink s = some (t, u, r)) : r.length < s.length := by
  match s with
  | [] => simp [tryMatchLink] at h
  | c :: s1 =>
    rw [tryMatchLink] at h
    by_cases hc : c = '['
    · rw [if_pos hc] at h
      rcases hta : s1.takeWhile isLinkTextChar with _ | ⟨t0, ts⟩ <;>
        rcases hdr : s1.dropWhile isLinkTextChar with _ | ⟨d0, dtl⟩ <;>
        rw [hta, hdr] at h <;> try dsimp only at h
      all_goals try exact Option.noConfusion h
      rcases dtl with _ | ⟨d1, s3⟩
      · simp at h
      · dsimp only at h
        have hs3 : s3.length + 2 ≤ s1.length := by
          have := (List.dropWhile_suffix isLinkTextChar (l := s1)).length_le
          rw [hdr] at this
          simp only [List.length_cons] at this
          omega
        by_cases hd : d0 = ']' ∧ d1 = '('
        · rw [if_pos hd] at h
          rcases hu : tryMatchUrl s3 with _ | ⟨url, s5⟩ <;> rw [hu] at h
          · simp at h
          · simp only [Option.some_inj] at h
            have hr : s5 = r := congrArg (fun p => p.2.2) h
            subst hr
            have := tryMatchUrl_length hu
            simp only [List.length_cons]
            omega
        · rw [if_neg hd] at h
          simp at h
    · rw [if_neg hc] at h
      simp at h

/-- Embedding of the hallucination-filter pass: every match of the link
pattern is kept verbatim when its url is in the accumulated grounding-URI
set, and replaced by exactly its anchor text otherwise; all other
characters are copied unchanged. -/
def removeHallucinatedLinks (validUris : List (List Char)) : List Char → List Char
  | [] => []
  | c :: cs =>
    match h : tryMatchLink (c :: cs) with
    | some (text, url, rest) =>
      (if url ∈ validUris then mdLink text url else text) ++
        removeHallucinatedLinks validUris rest
    | none => c :: removeHallucinatedLinks validUris cs
termination_by s => s.length
decreasing_by
  · exact tryMatchLink_length h
  · simp

/- ### Chart-placeholder pass of the markup renderer
(src/index.tsx, `renderMarkdownToHtml`)

`html = html.replace(/\[INTERACTIVE_CHART:([\s\S]*?)\]/gs, (match, jsonString) => \x7b
   try \x7b JSON.parse(jsonString);
         const encodedJsonString = jsonString.replace(/"/g, '&quot;');
         return `<div class="chart-container"><canvas data-chart-data="..."></canvas></div>`; \x7d
   catch (e) \x7b return '<div class="error">...</div>'; \x7d \x7d);`

`JSON.parse` is embedded as a fuel-bounded recursive-descent validity
checker for the JSON grammar (the parsed value is discarded by the source,
only success/failure matters). -/

/-- JSON insignificant whitespace. -/
def jsonWsChar (c : Char) : Bool := c = ' ' || c = '\t' || c = '\n' || c = '\r'

/-- Skipper of JSON insignificant whitespace. -/
def skipJsonWs (s : List Char) : List Char := s.dropWhile jsonWsChar

/-- ASCII decimal digit. -/
def isJsonDigit (c : Char) : Bool := '0' ≤ c && c ≤ '9'

/-- ASCII hexadecimal digit (for `\uXXXX` escapes). -/
def isJsonHexDigit (c : Char) : Bool :=
  isJsonDigit c || ('a' ≤ c && c ≤ 'f') || ('A' ≤ c && c ≤ 'F')

/-- Parse the remainder of a JSON string literal (after the opening quote),
returning the input after the closing quote. -/
def parseStringRest : List Char → Option (List Char)
  | [] => none
  | c :: cs =>
    if c = '"' then some cs
    else if c = '\\' then
      match cs with
      | [] => none
      | e :: cs2 =>
        if e = 'u' then
          match cs2 with
          | h1 :: h2 :: h3 :: h4 :: cs3 =>
            if isJsonHexDigit h1 && isJsonHexDigit h2 && isJsonHexDigit h3 &&
                isJsonHexDigit h4 then
              parseStringRest cs3
            else none
          | _ => none
        else if e = '"' || e = '\\' || e = '/' || e = 'b' || e = 'f' || e = 'n' ||
            e = 'r' || e = 't' then
          parseStringRest cs2
        else none
    else if c.toNat < 32 then none
    else parseStringRest cs

/-- Parse an optional JSON exponent part. -/
def parseExpPart (s : List Char) : Option (List Char) :=
  match s with
  | c :: cs =>
    if c = 'e' || c = 'E' then
      let cs2 :=
        match cs with
        | d :: ds => if d = '+' || d = '-' then ds else cs
        | [] => cs
      match cs2 with
      | d :: _ => if isJsonDigit d then some (cs2.dropWhile isJsonDigit) else none
      | [] => none
    else some s
  | [] => some s

/-- Parse an optional JSON fraction part followed by an optional exponent. -/
def parseFracPart (s : List Char) : Option (List Char) :=
  match s with
  | c :: cs =>
    if c = '.' then
      match cs with
      | d :: _ => if isJsonDigit d then parseExpPart (cs.dropWhile isJsonDigit) else none
      | [] => none
    else parseExpPart s
  | [] => some s

/-- Parse a JSON number (`-? (0 | [1-9][0-9]*) frac? exp?`). -/
def parseJsonNumber (s : List Char) : Option (List Char) :=
  let s1 :=
    match s with
    | c :: cs => if c = '-' then cs else s
    | [] => s
  match s1 with
  | c :: cs =>
    if c = '0' then parseFracPart cs
    else if isJsonDigit c then parseFracPart (cs.dropWhile isJsonDigit)
    else none
  | [] => none

/-- The literal `true`. -/
def trueLit : List Char := ['t', 'r', 'u', 'e']

/-- The literal `false`. -/
def falseLit : List Char := ['f', 'a', 'l', 's', 'e']

/-- The literal `null`. -/
def nullLit : List Char := ['n', 'u', 'l', 'l']

mutual

/-- Parse one JSON value, returning the rest of the input on success.  The
fuel only bounds recursion depth; `jsonParses` supplies enough for any
input of its length. -/
def parseJsonValue : Nat → List Char → Option (List Char)
  | 0, _ => none
  | fuel + 1, s =>
    match skipJsonWs s with
    | [] => none
    | c :: cs =>
      if c = '"' then parseStringRest cs
      else if c = '[' then parseJsonArray fuel cs
      else if c = '\x7b' then parseJsonObject fuel cs
      else if c = '-' || isJsonDigit c then parseJsonNumber (c :: cs)
      else
        match stripLit trueLit (c :: cs) with
        | some r => some r
        | none =>
          match stripLit falseLit (c :: cs) with
          | some r => some r
          | none =>
            match stripLit nullLit (c :: cs) with
            | some r => some r
            | none => none

/-- Parse the inside of a JSON array (after `[`). -/
def parseJsonArray : Nat → List Char → Option (List Char)
  | 0, _ => none
  | fuel + 1, s =>
    match skipJsonWs s with
    | [] => none
    | c :: cs =>
      if c = ']' then some cs
      else
        match parseJsonValue fuel (c :: cs) with
        | some r => parseJsonArrayTail fuel r
        | none => none

/-- Parse the continuation of a JSON array after a parsed element. -/
def parseJsonArrayTail : Nat → List Char → Option (List Char)
  | 0, _ => none
  | fuel + 1, s =>
    match skipJsonWs s with
    | [] => none
    | c :: cs =>
      if c = ',' then
        match parseJsonValue fuel cs with
        | some r => parseJsonArrayTail fuel r
        | none => none
      else if c = ']' then some cs
      else none

/-- Parse one JSON object member `"key" : value`. -/
def parseJsonMember : Nat → List Char → Option (List Char)
  | 0, _ => none
  | fuel + 1, s =>
    match skipJsonWs s with
    | [] => none
    | c :: cs =>
      if c = '"' then
        match parseStringRest cs with
        | some r =>
          match skipJsonWs r with
          | d :: ds => if d = ':' then parseJsonValue fuel ds else none
          | [] => none
        | none => none
      else none

/-- Parse the inside of a JSON object (after the opening brace). -/
def parseJsonObject : Nat → List Char → Option (List Char)
  | 0, _ => none
  | fuel + 1, s =>
    match skipJsonWs s with
    | [] => none
    | c :: cs =>
      if c = '\x7d' then some cs
      else
        match parseJsonMember fuel (c :: cs) with
        | some r => parseJsonObjectTail fuel r
        | none => none

/-- Parse the continuation of a JSON object after a parsed member. -/
def parseJsonObjectTail : Nat → List Char → Option (List Char)
  | 0, _ => none
  | fuel + 1, s =>
    match skipJsonWs s with
    | [] => none
    | c :: cs =>
      if c = ',' then
        match parseJsonMember fuel cs with
        | some r => parseJsonObjectTail fuel r
        | none => none
      else if c = '\x7d' then some cs
      else none

end

/-- Embedding of `JSON.parse(jsonString)` as a validity test: a whole input
must be one JSON value surrounded by insignificant whitespace. -/
def jsonParses (s : List Char) : Bool :=
  match parseJsonValue (2 * s.length + 2) s with
  | some r => (skipJsonWs r).isEmpty
  | none => false

/-- The literal `[INTERACTIVE_CHART:` opening a chart placeholder. -/
def chartTagLit : List Char :=
  ['[', 'I', 'N', 'T', 'E', 'R', 'A', 'C', 'T', 'I', 'V', 'E', '_', 'C', 'H', 'A', 'R', 'T', ':']

/-- Char class `[^\]]`: what the lazy payload group can take before `\]`. -/
def notRBracket (c : Char) : Bool := c != ']'

/-- Matcher of `\[INTERACTIVE_CHART:([\s\S]*?)\]` at the head of the input:
the lazy group captures exactly up to the first `]`; returns
(captured payload, rest after that `]`). -/
def tryMatchChart (s : List Char) : Option (List Char × List Char) :=
  match stripLit chartTagLit s with
  | some r =>
    match r.dropWhile notRBracket with
    | _ :: rest => some (r.takeWhile notRBracket, rest)
    | [] => none
  | none => none

/-- The inline error element substituted for a chart whose JSON fails to parse. -/
def chartErrorDiv : List Char :=
  ("<div class=\"error\">グラフデータの解析に失敗しました。AIが生成したデータが不正な形式です。</div>").data

/-- The `jsonString.replace(/"/g, '&quot;')` attribute re-escaping. -/
def encodeQuotesForAttr (s : List Char) : List Char :=
  s.flatMap (fun c => if c = '"' then ['&', 'q', 'u', 'o', 't', ';'] else [c])

/-- The chart container element emitted for a chart whose JSON parses. -/
def chartContainerDiv (payload : List Char) : List Char :=
  ("<div class=\"chart-container\"><canvas data-chart-data=\"").data ++
    encodeQuotesForAttr payload ++ ("\"></canvas></div>").data

theorem tryMatchChart_length {s p rest : List Char}
    (h : tryMatchChart s = some (p, rest)) : rest.length < s.length := by
  unfold tryMatchChart at h
  rcases h1 : stripLit chartTagLit s with _ | r <;> rw [h1] at h
  · simp at h
  · dsimp only at h
    have hr := stripLit_length h1
    have hdrop : (r.dropWhile notRBracket).length ≤ r.length :=
      (List.dropWhile_suffix notRBracket).length_le
    rcases hdr : r.dropWhile notRBracket with _ | ⟨d, rest'⟩ <;> rw [hdr] at h
    · simp at h
    · simp only [Option.some_inj, Prod.mk.injEq] at h
      obtain ⟨-, h2⟩ := h
      subst h2
      rw [hdr] at hdrop
      simp only [List.length_cons] at hdrop
      simp only [chartTagLit, List.length_cons] at hr
      omega

/-- Embedding of the chart pass of `renderMarkdownToHtml`: every match of
the chart regex is replaced by the container element when its captured
payload parses as JSON, and by the inline error element otherwise; all
other characters are copied unchanged. -/
def replaceChartPlaceholders : List Char → List Char
  | [] => []
  | c :: cs =>
    match h : tryMatchChart (c :: cs) with
    | some (payload, rest) =>
      (if jsonParses payload then chartContainerDiv payload else chartErrorDiv) ++
        replaceChartPlaceholders rest
    | none => c :: replaceChartPlaceholders cs
termination_by s => s.length
decreasing_by
  · exact tryMatchChart_length h
  · simp

/- ### Reversible placeholder-key codec (src/index.tsx, `encodeUnicode` /
`decodeUnicode`)

`function encodeUnicode(str) \x7b return btoa(encodeURIComponent(str).replace(
   /%([0-9A-F]\x7b2\x7d)/g, (match, p1) => String.fromCharCode(parseInt(p1, 16)))); \x7d
 function decodeUnicode(str) \x7b try \x7b return decodeURIComponent(atob(str).split('')
   .map(c => '%' + ('00' + c.charCodeAt(0).toString(16)).slice(-2)).join('')); \x7d
   catch(e) \x7b return str; \x7d \x7d`

`encodeURIComponent` percent-escapes the UTF-8 bytes of every character
outside its unreserved set; the `replace` folds every `%XX` escape back to
the byte as a char code, so `btoa` receives exactly the UTF-8 bytes (we
read them off as numbers where the source reads char codes).  `atob` is the
WHATWG forgiving-base64 decoder, and `decodeURIComponent` re-parses the
lower-case `%xx` escape string as strict UTF-8; each throwing operation is
embedded as an `Option`, and the `try/catch` returns the input on `none`. -/

/-- UTF-8 encoding of a single code point. -/
def utf8EncodeChar (n : Nat) : List Nat :=
  if n < 128 then [n]
  else if n < 2048 then [192 + n / 64, 128 + n % 64]
  else if n < 65536 then [224 + n / 4096, 128 + n / 64 % 64, 128 + n % 64]
  else [240 + n / 262144, 128 + n / 4096 % 64, 128 + n / 64 % 64, 128 + n % 64]

/-- UTF-8 encoding of a string. -/
def utf8Encode (s : List Char) : List Nat :=
  s.flatMap (fun c => utf8EncodeChar c.toNat)

/-- The unreserved set of `encodeURIComponent`
(`A-Z a-z 0-9 - _ . ! ~ * ' ( )`), left unescaped. -/
def isUnreservedChar (c : Char) : Bool :=
  let n := c.toNat
  (65 ≤ n && n ≤ 90) || (97 ≤ n && n ≤ 122) || (48 ≤ n && n ≤ 57) ||
    n = 45 || n = 95 || n = 46 || n = 33 || n = 126 || n = 42 || n = 39 ||
    n = 40 || n = 41

/-- Upper-case hexadecimal digit, as emitted by `encodeURIComponent`. -/
def hexUpperDigit (n : Nat) : Char :=
  if n < 10 then Char.ofNat (48 + n) else Char.ofNat (55 + n)

/-- The escape `%XX` of one byte. -/
def percentEscape (b : Nat) : List Char :=
  ['%', hexUpperDigit (b / 16), hexUpperDigit (b % 16)]

/-- Embedding of `encodeURIComponent`: unreserved characters stay, every
other character becomes the `%XX` escapes of its UTF-8 bytes. -/
def encodeURIComponent (s : List Char) : List Char :=
  s.flatMap (fun c =>
    if isUnreservedChar c then [c]
    else (utf8EncodeChar c.toNat).flatMap percentEscape)

/-- Value of a `[0-9A-F]` digit (the char class of the `replace` regex). -/
def hexUpperVal (c : Char) : Option Nat :=
  let n := c.toNat
  if 48 ≤ n ∧ n ≤ 57 then some (n - 48)
  else if 65 ≤ n ∧ n ≤ 70 then some (n - 55)
  else none

/-- The `replace(/%([0-9A-F]\x7b2\x7d)/g, ...)` pass composed with reading the
resulting binary string's char codes: every `%XX` match becomes the byte
`0xXX`, every other character contributes its own code. -/
def percentToBytes : List Char → List Nat
  | c :: h1 :: h2 :: rest =>
    if c = '%' then
      match hexUpperVal h1, hexUpperVal h2 with
      | some a, some b => (16 * a + b) :: percentToBytes rest
      | _, _ => c.toNat :: percentToBytes (h1 :: h2 :: rest)
    else c.toNat :: percentToBytes (h1 :: h2 :: rest)
  | c :: cs => c.toNat :: percentToBytes cs
  | [] => []

/-- The base64 alphabet. -/
def b64Alphabet : List Char :=
  ("ABCDEFGHIJKLMNOPQRSTUVWXYZabcdefghijklmnopqrstuvwxyz0123456789+/").data

/-- Base64 digit of a sextet. -/
def b64Char (n : Nat) : Char := b64Alphabet.getD n 'A'

/-- Embedding of `btoa` on the byte values of its binary-string argument:
standard padded base64. -/
def btoaBytes : List Nat → List Char
  | [] => []
  | [b1] => [b64Char (b1 / 4), b64Char (b1 % 4 * 16), '=', '=']
  | [b1, b2] => [b64Char (b1 / 4), b64Char (b1 % 4 * 16 + b2 / 16), b64Char (b2 % 16 * 4), '=']
  | b1 :: b2 :: b3 :: rest =>
    b64Char (b1 / 4) :: b64Char (b1 % 4 * 16 + b2 / 16) ::
      b64Char (b2 % 16 * 4 + b3 / 64) :: b64Char (b3 % 64) :: btoaBytes rest

/-- Embedding of `encodeUnicode`. -/
def encodeUnicode (s : List Char) : List Char :=
  btoaBytes (percentToBytes (encodeURIComponent s))

/-- ASCII whitespace stripped by forgiving base64 (`atob`). -/
def isB64Ws (c : Char) : Bool :=
  c = ' ' || c = '\t' || c = '\n' || c = '\x0c' || c = '\r'

/-- Value of a base64 digit. -/
def b64CharVal (c : Char) : Option Nat :=
  let n := c.toNat
  if 65 ≤ n ∧ n ≤ 90 then some (n - 65)
  else if 97 ≤ n ∧ n ≤ 122 then some (n - 71)
  else if 48 ≤ n ∧ n ≤ 57 then some (n + 4)
  else if n = 43 then some 62
  else if n = 47 then some 63
  else none

/-- Removal of one trailing `=`. -/
def dropOneEq (t : List Char) : List Char :=
  if t.getLast? = some '=' then t.dropLast else t

/-- Removal of one or two trailing `=` (forgiving-base64 padding step). -/
def dropPad (t : List Char) : List Char := dropOneEq (dropOneEq t)

/-- Decoding of a whitespace- and padding-stripped base64 string into bytes:
full chunks of 4 digits give 3 bytes, a final chunk of 2 or 3 digits gives
1 or 2 bytes (leftover bits discarded), a final chunk of 1 digit fails, and
any non-alphabet character fails. -/
def decodeChunks : List Char → Option (List Nat)
  | [] => some []
  | [c1, c2] =>
    match b64CharVal c1, b64CharVal c2 with
    | some n1, some n2 => some [n1 * 4 + n2 / 16]
    | _, _ => none
  | [c1, c2, c3] =>
    match b64CharVal c1, b64CharVal c2, b64CharVal c3 with
    | some n1, some n2, some n3 => some [n1 * 4 + n2 / 16, n2 % 16 * 16 + n3 / 4]
    | _, _, _ => none
  | c1 :: c2 :: c3 :: c4 :: rest =>
    match b64CharVal c1, b64CharVal c2, b64CharVal c3, b64CharVal c4 with
    | some n1, some n2, some n3, some n4 =>
      Option.map
        (fun bs => (n1 * 4 + n2 / 16) :: (n2 % 16 * 16 + n3 / 4) :: (n3 % 4 * 64 + n4) :: bs)
        (decodeChunks rest)
    | _, _, _, _ => none
  | [_] => none

/-- Final step of `atob` on the whitespace- and padding-stripped input:
reject a length remainder of 1, then decode. -/
def atobStripped (t2 : List Char) : Option (List Nat) :=
  if t2.length % 4 = 1 then none else decodeChunks t2

/-- Embedding of `atob` (WHATWG forgiving base64 decode): strip ASCII
whitespace, strip padding when the length is a multiple of 4, reject a
remainder of 1, then decode. -/
def atob (s : List Char) : Option (List Nat) :=
  atobStripped
    (if (s.filter (fun c => !(isB64Ws c))).length % 4 = 0
      then dropPad (s.filter (fun c => !(isB64Ws c)))
      else s.filter (fun c => !(isB64Ws c)))

/-- Lower-case hexadecimal digit, as produced by `toString(16)`. -/
def hexLowerDigit (n : Nat) : Char :=
  if n < 10 then Char.ofNat (48 + n) else Char.ofNat (87 + n)

/-- The `'%' + ('00' + byte.toString(16)).slice(-2)` escape of one byte. -/
def byteToPercent (b : Nat) : List Char :=
  ['%', hexLowerDigit (b / 16 % 16), hexLowerDigit (b % 16)]

/-- Value of a hexadecimal digit of either case (accepted by
`decodeURIComponent` escapes). -/
def hexAnyVal (c : Char) : Option Nat :=
  let n := c.toNat
  if 48 ≤ n ∧ n ≤ 57 then some (n - 48)
  else if 97 ≤ n ∧ n ≤ 102 then some (n - 87)
  else if 65 ≤ n ∧ n ≤ 70 then some (n - 55)
  else none

/-- Tokenizer of `decodeURIComponent`: each `%XX` escape becomes the byte
`0xXX` (`Sum.inl`), every other character passes through literally
(`Sum.inr`); a malformed escape throws (`none`). -/
def uriTokens : List Char → Option (List (Nat ⊕ Char))
  | [] => some []
  | c :: cs =>
    if c = '%' then
      match cs with
      | h1 :: h2 :: rest =>
        match hexAnyVal h1, hexAnyVal h2 with
        | some a, some b => Option.map (fun ts => Sum.inl (16 * a + b) :: ts) (uriTokens rest)
        | _, _ => none
      | _ => none
    else Option.map (fun ts => Sum.inr c :: ts) (uriTokens cs)

/-- Reader of one continuation-byte token: an escape byte in `[0x80, 0xC0)`. -/
def contTok : List (Nat ⊕ Char) → Option (Nat × List (Nat ⊕ Char))
  | Sum.inl b :: ts => if 128 ≤ b ∧ b < 192 then some (b, ts) else none
  | _ => none

/-- Strict UTF-8 decoding of the token stream of `decodeURIComponent`: an
escape byte starts a UTF-8 sequence whose continuation bytes must also be
escape bytes; invalid, overlong, surrogate or out-of-range sequences throw
(`none`).  The fuel only bounds recursion depth; `utf8DecodeTokens`
supplies enough for any token stream. -/
def utf8DecodeTokensGo : Nat → List (Nat ⊕ Char) → Option (List Char)
  | 0, _ => none
  | _ + 1, [] => some []
  | fuel + 1, Sum.inr c :: ts => Option.map (fun r => c :: r) (utf8DecodeTokensGo fuel ts)
  | fuel + 1, Sum.inl b1 :: ts =>
    if b1 < 128 then Option.map (fun r => Char.ofNat b1 :: r) (utf8DecodeTokensGo fuel ts)
    else if 194 ≤ b1 ∧ b1 < 224 then
      match contTok ts with
      | some (b2, ts2) =>
        Option.map (fun r => Char.ofNat ((b1 - 192) * 64 + (b2 - 128)) :: r)
          (utf8DecodeTokensGo fuel ts2)
      | none => none
    else if 224 ≤ b1 ∧ b1 < 240 then
      match contTok ts with
      | some (b2, ts2) =>
        match contTok ts2 with
        | some (b3, ts3) =>
          if 2048 ≤ (b1 - 224) * 4096 + (b2 - 128) * 64 + (b3 - 128) ∧
              ¬(55296 ≤ (b1 - 224) * 4096 + (b2 - 128) * 64 + (b3 - 128) ∧
                (b1 - 224) * 4096 + (b2 - 128) * 64 + (b3 - 128) < 57344) then
            Option.map
              (fun r => Char.ofNat ((b1 - 224) * 4096 + (b2 - 128) * 64 + (b3 - 128)) :: r)
              (utf8DecodeTokensGo fuel ts3)
          else none
        | none => none
      | none => none
    else if 240 ≤ b1 ∧ b1 < 245 then
      match contTok ts with
      | some (b2, ts2) =>
        match contTok ts2 with
        | some (b3, ts3) =>
          match contTok ts3 with
          | some (b4, ts4) =>
            if 65536 ≤ (b1 - 240) * 262144 + (b2 - 128) * 4096 + (b3 - 128) * 64 +
                  (b4 - 128) ∧
                (b1 - 240) * 262144 + (b2 - 128) * 4096 + (b3 - 128) * 64 + (b4 - 128) <
                  1114112 then
              Option.map
                (fun r => Char.ofNat ((b1 - 240) * 262144 + (b2 - 128) * 4096 +
                  (b3 - 128) * 64 + (b4 - 128)) :: r)
                (utf8DecodeTokensGo fuel ts4)
            else none
          | none => none
        | none => none
      | none => none
    else none

/-- Strict UTF-8 decoding of a token stream, with sufficient fuel. -/
def utf8DecodeTokens (ts : List (Nat ⊕ Char)) : Option (List Char) :=
  utf8DecodeTokensGo (ts.length + 1) ts

/-- Embedding of `decodeURIComponent` on an escape string: tokenize the
escapes, then decode the token stream as strict UTF-8. -/
def decodeURIComponentChars (s : List Char) : Option (List Char) :=
  match uriTokens s with
  | some ts => utf8DecodeTokens ts
  | none => none

/-- Embedding of `decodeUnicode`: base64-decode, re-escape every byte as
`%xx`, decode as a URI component; on any failure return the input string
unchanged (the `try/catch`). -/
def decodeUnicode (s : List Char) : List Char :=
  match atob s with
  | none => s
  | some bytes =>
    match decodeURIComponentChars (bytes.flatMap byteToPercent) with
    | none => s
    | some r => r

/- ### Auxiliary definitions used by the development below -/

/-- The unpadded base64 digits of a byte list (used to reason about
`btoaBytes` = digits ++ padding). -/
def b64core : List Nat → List Char
  | [] => []
  | [b1] => [b64Char (b1 / 4), b64Char (b1 % 4 * 16)]
  | [b1, b2] => [b64Char (b1 / 4), b64Char (b1 % 4 * 16 + b2 / 16), b64Char (b2 % 16 * 4)]
  | b1 :: b2 :: b3 :: rest =>
    b64Char (b1 / 4) :: b64Char (b1 % 4 * 16 + b2 / 16) ::
      b64Char (b2 % 16 * 4 + b3 / 64) :: b64Char (b3 % 64) :: b64core rest

/-- The base64 padding of a byte list. -/
def padOf : List Nat → List Char
  | [] => []
  | [_] => ['=', '=']
  | [_, _] => ['=']
  | _ :: _ :: _ :: rest => padOf rest

/-- Concrete operation schedule for the retry-wrapper witness: two failures,
then success. -/
def sampleRetryFn : Nat → Except String Nat :=
  fun i => if i = 0 then .error "e0" else if i = 1 then .error "e1" else .ok 42

/-- Concrete task list for the image-stage witness. -/
def sampleImageTasks : List ImageGenerationTask :=
  [⟨"k1", "p1", ""⟩, ⟨"k2", "p2", "ov"⟩, ⟨"k3", "p3", ""⟩]

/-- Concrete image API for the witness: fails exactly on the second task's
full prompt. -/
def sampleImageApi : String → Except String String :=
  fun p =>
    if p = "p2, with the text \"ov\" clearly visible" then .error "quota exceeded"
    else .ok ("img-" ++ p)

/-- Concrete 50-article history state for the eviction witness. -/
def sampleHistoryState : HistoryState :=
  { articles := (List.range 50).map (fun i => ⟨i, "t"⟩)
    imageDb := [(49, ⟨none, []⟩)] }

/-- Concrete article for the markup-cache witness. -/
def sampleArticle : ArticleHistoryItem :=
  { id := 1
    theme := "t"
    persona := "p"
    markdown := "# hello"
    html := ""
    references := []
    coverImage := none
    imageMap := []
    creativeDirection := none
    performance := none
    factCheck := { status := "unchecked", results := [] } }

/-- Chart payload with a missing comma inside an array (the spec's own
example class of malformed chart JSON); note it contains a `]`. -/
def cexChartPayload : List Char := ("\x7b\"a\":[1 2]\x7d").data

/-- A creative direction chosen by the card click handler in an earlier run;
the module variable `selectedDirection` (src/index.tsx:109) still holds it
at the next run's direction stage, since only the back-to-outlines button
(src/index.tsx:433) ever clears it. -/
def staleDirection : CreativeDirection :=
  { style := "minimal", palette := ["#111111", "#f5f5f5", "#e91e63"] }

/-- Concrete user input for the stale-direction run. -/
def cexUserInput : UserInput :=
  { theme := "t2", persona := "p2", expertPersona := "x", tone := "casual"
    articleType := "how-to", price := none, productDescription := none }

/-! ## Theorems -/

/- ### General helper lemmas -/

theorem takeWhile_dropWhile_split {p : Char → Bool} (xs : List Char) (y : Char)
    (ys : List Char) (hx : ∀ x ∈ xs, p x = true) (hy : p y = false) :
    (xs ++ y :: ys).takeWhile p = xs ∧ (xs ++ y :: ys).dropWhile p = y :: ys := by
  induction xs with
  | nil => simp [List.takeWhile, List.dropWhile, hy]
  | cons x xs ih =>
    have hpx : p x = true := hx x (by simp)
    have ih' := ih (fun z hz => hx z (by simp [hz]))
    simp [List.takeWhile_cons, List.dropWhile_cons, hpx, ih'.1, ih'.2]

theorem stripLit_append (lit r : List Char) : stripLit lit (lit ++ r) = some r := by
  induction lit with
  | nil => rfl
  | cons c cs ih => simp [stripLit, ih]

/- ### C6 helper lemmas: the instrumented retry loop -/

theorem withRetryGo_calls_le {α : Type} (fn : Nat → Except String α)
    (retries delay : Nat) : ∀ k i, retries ≤ i + k →
    (withRetryGo fn retries delay i).2.2 ≤ k := by
  intro k
  induction k with
  | zero =>
    intro i hi
    rw [withRetryGo, if_neg (by omega)]
  | succ k ih =>
    intro i hi
    rw [withRetryGo]
    by_cases h : i < retries
    · rw [if_pos h]
      split
      · dsimp only
        omega
      · split
        · dsimp only
          omega
        · dsimp only
          have := ih (i + 1) (by omega)
          omega
    · rw [if_neg h]
      dsimp only
      omega

theorem withRetryGo_ok {α : Type} (fn : Nat → Except String α) (retries delay : Nat)
    (a : α) : ∀ k i, i + k < retries → fn (i + k) = .ok a →
    (∀ j, i ≤ j → j < i + k → ∃ e, fn j = .error e) →
    withRetryGo fn retries delay i =
      (.ok a, (List.range' (i + 1) k).map (fun j => delay * j), k + 1) := by
  intro k
  induction k with
  | zero =>
    intro i hlt hok _
    rw [withRetryGo, if_pos (by omega)]
    simp only [Nat.add_zero] at hok
    rw [hok]
    dsimp only
    simp
  | succ k ih =>
    intro i hlt hok herr
    obtain ⟨e, he⟩ := herr i (le_refl i) (by omega)
    rw [withRetryGo, if_pos (by omega), he]
    try dsimp only
    rw [if_neg (by omega)]
    try dsimp only
    have hrec := ih (i + 1) (by omega) (by rw [show i + 1 + k = i + (k + 1) by omega]; exact hok)
      (fun j h1 h2 => herr j (by omega) (by omega))
    rw [hrec]
    simp [List.range'_succ]

theorem withRetryGo_err {α : Type} (fn : Nat → Except String α) (retries delay : Nat)
    (e : String) : ∀ k i, i + k + 1 = retries →
    (∀ j, i ≤ j → j < retries → ∃ e', fn j = .error e') →
    fn (retries - 1) = .error e →
    withRetryGo fn retries delay i =
      (.error e, (List.range' (i + 1) k).map (fun j => delay * j), k + 1) := by
  intro k
  induction k with
  | zero =>
    intro i hi herr hlast
    have hieq : i = retries - 1 := by omega
    rw [withRetryGo, if_pos (by omega), hieq, hlast]
    dsimp only
    rw [if_pos rfl]
    simp
  | succ k ih =>
    intro i hi herr hlast
    obtain ⟨e', he'⟩ := herr i (le_refl i) (by omega)
    rw [withRetryGo, if_pos (by omega), he']
    try dsimp only
    rw [if_neg (by omega)]
    try dsimp only
    have hrec := ih (i + 1) (by omega) (fun j h1 h2 => herr j (by omega) h2) hlast
    rw [hrec]
    simp [List.range'_succ]

/- ### Claim theorems -/

/-- C6: for every operation `fn`, attempt count `n` and base delay `d`, the
retry wrapper invokes `fn` at most `n` times; if the first success is at
attempt `i + 1` (0-based index `i`, every earlier attempt failing), it
returns that result after sleeping `d * 1, ..., d * i`; if all `n` attempts
fail it propagates exactly the error of the last attempt, after sleeping
`d * 1, ..., d * (n - 1)`. -/
theorem withRetry_spec {α : Type} (fn : Nat → Except String α) (n d : Nat)
    (hn : 0 < n) :
    (withRetry fn n d).2.2 ≤ n ∧
    (∀ i a, i < n → fn i = .ok a → (∀ j, j < i → ∃ e, fn j = .error e) →
      withRetry fn n d = (.ok a, (List.range' 1 i).map (fun j => d * j), i + 1)) ∧
    (∀ e, (∀ j, j < n → ∃ e', fn j = .error e') → fn (n - 1) = .error e →
      withRetry fn n d = (.error e, (List.range' 1 (n - 1)).map (fun j => d * j), n)) := by
  refine ⟨withRetryGo_calls_le fn n d n 0 (by omega), ?_, ?_⟩
  · intro i a hi hok herr
    have h := withRetryGo_ok fn n d a i 0 (by omega) (by simpa using hok)
      (fun j h1 h2 => herr j (by omega))
    simpa [withRetry] using h
  · intro e herr hlast
    have h := withRetryGo_err fn n d e (n - 1) 0 (by omega)
      (fun j h1 h2 => herr j h2) hlast
    rw [withRetry, h, show n - 1 + 1 = n by omega]

/-- Witness for C6: with the concrete schedule failing twice then
succeeding, three attempts are made, the sleeps are 1000 and 2000 ms, and
the first success is returned. -/
theorem withRetry_spec_witness :
    withRetry sampleRetryFn 3 1000 = (.ok 42, [1000, 2000], 3) := by
  have h := (withRetry_spec sampleRetryFn 3 1000 (by omega)).2.1 2 42 (by omega) rfl
    (fun j hj => by
      match j, hj with
      | 0, _ => exact ⟨"e0", rfl⟩
      | 1, _ => exact ⟨"e1", rfl⟩)
  rw [h]
  rfl

/- ### Association-list lemmas -/

theorem assocSet_of_not_mem {κ β : Type} [DecidableEq κ] (m : List (κ × β)) (k : κ)
    (v : β) (h : k ∉ m.map Prod.fst) : assocSet m k v = m ++ [(k, v)] := by
  induction m with
  | nil => rfl
  | cons e rest ih =>
    obtain ⟨k', v'⟩ := e
    simp only [List.map_cons, List.mem_cons] at h
    push_neg at h
    rw [assocSet, if_neg (fun hh => h.1 hh.symm)]
    rw [ih h.2]
    rfl

theorem assocSet_map_fst {κ β : Type} [DecidableEq κ] (m : List (κ × β)) (k : κ) (v : β) :
    (assocSet m k v).map Prod.fst =
      if k ∈ m.map Prod.fst then m.map Prod.fst else m.map Prod.fst ++ [k] := by
  induction m with
  | nil => simp [assocSet]
  | cons e rest ih =>
    obtain ⟨k', v'⟩ := e
    by_cases hk : k' = k
    · subst hk
      rw [assocSet, if_pos rfl]
      simp
    · rw [assocSet, if_neg hk]
      simp only [List.map_cons, List.mem_cons]
      rw [ih]
      by_cases hmem : k ∈ rest.map Prod.fst
      · rw [if_pos hmem, if_pos (Or.inr hmem)]
      · rw [if_neg hmem, if_neg (by
          rintro (h | h)
          · exact hk h.symm
          · exact hmem h)]
        simp

theorem assocSet_mem_or {κ β : Type} [DecidableEq κ] (m : List (κ × β)) (k : κ) (v : β) :
    ∀ e ∈ assocSet m k v, e ∈ m ∨ e = (k, v) := by
  induction m with
  | nil =>
    intro e he
    simp only [assocSet, List.mem_singleton] at he
    exact Or.inr he
  | cons e0 rest ih =>
    obtain ⟨k', v'⟩ := e0
    intro e he
    rw [assocSet] at he
    by_cases hk : k' = k
    · rw [if_pos hk] at he
      rcases List.mem_cons.mp he with h | h
      · exact Or.inr (by rw [h, hk])
      · exact Or.inl (List.mem_cons_of_mem _ h)
    · rw [if_neg hk] at he
      rcases List.mem_cons.mp he with h | h
      · exact Or.inl (by rw [h]; exact List.mem_cons_self _ _)
      · rcases ih e h with h2 | h2
        · exact Or.inl (List.mem_cons_of_mem _ h2)
        · exact Or.inr h2

theorem assocGet_set_self {κ β : Type} [DecidableEq κ] (m : List (κ × β)) (k : κ) (v : β) :
    assocGet (assocSet m k v) k = some v := by
  induction m with
  | nil => simp [assocSet, assocGet]
  | cons e rest ih =>
    obtain ⟨k', v'⟩ := e
    by_cases hk : k' = k
    · rw [assocSet, if_pos hk, assocGet, if_pos hk]
    · rw [assocSet, if_neg hk, assocGet, if_neg hk]
      exact ih

theorem assocGet_delete_self {κ β : Type} [DecidableEq κ] (m : List (κ × β)) (k : κ) :
    assocGet (assocDelete m k) k = none := by
  induction m with
  | nil => rfl
  | cons e rest ih =>
    obtain ⟨k', v'⟩ := e
    by_cases hk : k' = k
    · simpa [assocDelete, List.filter_cons, hk] using ih
    · unfold assocDelete at ih ⊢
      rw [List.filter_cons, if_pos (by simp [hk]), assocGet, if_neg hk]
      exact ih

theorem assocGet_delete_ne {κ β : Type} [DecidableEq κ] (m : List (κ × β)) (k k' : κ)
    (hne : k ≠ k') : assocGet (assocDelete m k') k = assocGet m k := by
  induction m with
  | nil => rfl
  | cons e rest ih =>
    obtain ⟨k0, v0⟩ := e
    by_cases hk : k0 = k'
    · rw [assocDelete, List.filter_cons, if_neg (by simp [hk])]
      rw [show List.filter (fun e => e.1 != k') rest = assocDelete rest k' from rfl, ih]
      rw [assocGet, if_neg (by rw [hk]; exact fun h => hne h.symm)]
    · rw [assocDelete, List.filter_cons, if_pos (by simp [hk])]
      by_cases h0 : k0 = k
      · rw [assocGet, if_pos h0, assocGet, if_pos h0]
      · rw [assocGet, if_neg h0, assocGet, if_neg h0]
        exact ih

/- ### C5: image-resolution stage -/

theorem generateAndStoreImages_go (api : String → Except String String) :
    ∀ (tasks : List ImageGenerationTask) (acc : List (String × String)),
      (∀ t ∈ tasks, t.key ∉ acc.map Prod.fst) → (tasks.map (fun t => t.key)).Nodup →
      tasks.foldl
        (fun results task =>
          match api (fullPrompt task) with
          | .ok payload => assocSet results task.key payload
          | .error _ => assocSet results task.key "error") acc =
      acc ++ tasks.map (fun t =>
        (t.key, match api (fullPrompt t) with | .ok p => p | .error _ => "error")) := by
  intro tasks
  induction tasks with
  | nil =>
    intro acc _ _
    simp
  | cons t rest ih =>
    intro acc hacc hnd
    have hkey : t.key ∉ acc.map Prod.fst := hacc t (List.mem_cons_self t rest)
    have hstep : (match api (fullPrompt t) with
        | .ok payload => assocSet acc t.key payload
        | .error _ => assocSet acc t.key "error") =
        acc ++ [(t.key, match api (fullPrompt t) with | .ok p => p | .error _ => "error")] := by
      cases hapi : api (fullPrompt t) with
      | ok p => exact assocSet_of_not_mem acc t.key p hkey
      | error e => exact assocSet_of_not_mem acc t.key "error" hkey
    rw [List.foldl_cons, hstep]
    have hnd' : (rest.map (fun t => t.key)).Nodup :=
      (List.nodup_cons.mp (by simpa using hnd)).2
    have hhead : t.key ∉ rest.map (fun t => t.key) :=
      (List.nodup_cons.mp (by simpa using hnd)).1
    rw [ih _ ?hacc2 hnd']
    · simp
    case hacc2 =>
      intro t' ht'
      rw [List.map_append]
      simp only [List.mem_append, List.map_cons, List.map_nil, List.mem_singleton]
      rintro (h | h)
      · exact hacc t' (List.mem_cons_of_mem _ ht') h
      · exact hhead (h ▸ List.mem_map_of_mem (fun t => t.key) ht')

/-- C5: for every task list with distinct keys and every outcome of the
external image call, the image-resolution stage returns exactly one entry
per task key, in order, holding the generated payload on success and the
literal sentinel `"error"` on failure of that task alone — so a failure
affects only its own key and later tasks still run. -/
theorem generateAndStoreImages_spec (api : String → Except String String)
    (tasks : List ImageGenerationTask) (hnd : (tasks.map (fun t => t.key)).Nodup) :
    generateAndStoreImages api tasks =
      tasks.map (fun t =>
        (t.key, match api (fullPrompt t) with | .ok p => p | .error _ => "error")) := by
  unfold generateAndStoreImages
  have h := generateAndStoreImages_go api tasks [] (by simp) hnd
  simpa using h

/-- Witness for C5: three tasks, the external call failing exactly on the
second task's prompt; the stage returns payloads for the first and third
keys and the `"error"` sentinel for the second. -/
theorem generateAndStoreImages_spec_witness :
    generateAndStoreImages sampleImageApi sampleImageTasks =
      [("k1", "img-p1"), ("k2", "error"), ("k3", "img-p3")] := by
  rw [generateAndStoreImages_spec sampleImageApi sampleImageTasks (by decide)]
  rfl

/- ### C3: reference deduplication -/

theorem jsMapOfEntries_go_fst :
    ∀ (es acc : List (String × Reference)),
      ((es.foldl (fun m e => assocSet m e.1 e.2) acc).map Prod.fst) =
        (es.map Prod.fst).foldl (fun ks u => if u ∈ ks then ks else ks ++ [u])
          (acc.map Prod.fst) := by
  intro es
  induction es with
  | nil =>
    intro acc
    simp
  | cons e rest ih =>
    intro acc
    rw [List.foldl_cons, List.map_cons, List.foldl_cons, ih, assocSet_map_fst]

theorem jsMapOfEntries_fst (es : List (String × Reference)) :
    (jsMapOfEntries es).map Prod.fst = firstOccurrences (es.map Prod.fst) := by
  unfold jsMapOfEntries firstOccurrences
  simpa using jsMapOfEntries_go_fst es []

theorem foldlDedup_nodup :
    ∀ (us acc : List String), acc.Nodup →
      (us.foldl (fun ks u => if u ∈ ks then ks else ks ++ [u]) acc).Nodup := by
  intro us
  induction us with
  | nil =>
    intro acc h
    simpa using h
  | cons u rest ih =>
    intro acc h
    rw [List.foldl_cons]
    apply ih
    by_cases hm : u ∈ acc
    · rwa [if_pos hm]
    · rw [if_neg hm, List.nodup_append]
      refine ⟨h, List.nodup_singleton u, ?_⟩
      intro a ha hb
      rw [List.mem_singleton] at hb
      rw [hb] at ha
      exact hm ha

theorem firstOccurrences_nodup (us : List String) : (firstOccurrences us).Nodup :=
  foldlDedup_nodup us [] List.nodup_nil

theorem jsMapOfEntries_go_snd :
    ∀ (es acc : List (String × Reference)),
      (∀ e ∈ es, e.2.uri = e.1) → (∀ e ∈ acc, e.2.uri = e.1) →
      ∀ e ∈ es.foldl (fun m e => assocSet m e.1 e.2) acc, e.2.uri = e.1 := by
  intro es
  induction es with
  | nil =>
    intro acc _ hacc e he
    exact hacc e he
  | cons e0 rest ih =>
    intro acc hes hacc e he
    rw [List.foldl_cons] at he
    refine ih _ (fun x hx => hes x (List.mem_cons_of_mem _ hx)) ?_ e he
    intro x hx
    rcases assocSet_mem_or acc e0.1 e0.2 x hx with h | h
    · exact hacc x h
    · rw [h]
      exact hes e0 (List.mem_cons_self _ _)

/-- C3: for every list of grounding chunks, the reference list of the
assembled article has at most 7 entries, pairwise distinct uris, and its
uris are exactly the grounded uris deduplicated in order of first
occurrence, truncated to 7. -/
theorem finalReferences_spec (cs : List GroundingChunk) :
    (finalReferences cs).length ≤ 7 ∧
    ((finalReferences cs).map (fun r => r.uri)).Nodup ∧
    (finalReferences cs).map (fun r => r.uri) =
      (firstOccurrences ((groundedReferences cs).map (fun r => r.uri))).take 7 := by
  have hinv : ∀ e ∈ (groundedReferences cs).map (fun r => (r.uri, r)), e.2.uri = e.1 := by
    intro e he
    obtain ⟨r, hr, rfl⟩ := List.mem_map.mp he
    rfl
  have hsnd : ∀ e ∈ jsMapOfEntries ((groundedReferences cs).map (fun r => (r.uri, r))),
      e.2.uri = e.1 :=
    jsMapOfEntries_go_snd _ [] hinv (by simp)
  have hkey : (uniqueReferences (groundedReferences cs)).map (fun r => r.uri) =
      firstOccurrences ((groundedReferences cs).map (fun r => r.uri)) := by
    unfold uniqueReferences
    rw [List.map_map]
    have h1 : (jsMapOfEntries ((groundedReferences cs).map (fun r => (r.uri, r)))).map
        ((fun r => r.uri) ∘ (fun e => e.2)) =
        (jsMapOfEntries ((groundedReferences cs).map (fun r => (r.uri, r)))).map Prod.fst :=
      List.map_congr_left (fun e he => hsnd e he)
    rw [h1, jsMapOfEntries_fst, List.map_map]
    rfl
  have hfr : (finalReferences cs).map (fun r => r.uri) =
      (firstOccurrences ((groundedReferences cs).map (fun r => r.uri))).take 7 := by
    unfold finalReferences
    rw [List.map_take, hkey]
  refine ⟨?_, ?_, hfr⟩
  · unfold finalReferences
    simp only [List.length_take]
    omega
  · rw [hfr]
    exact (List.take_sublist _ _).nodup (firstOccurrences_nodup _)

/- ### C9: history eviction -/

theorem getLast?_cons_of_ne_nil {α : Type} (a : α) (l : List α) (h : l ≠ []) :
    (a :: l).getLast? = l.getLast? := by
  cases l with
  | nil => exact absurd rfl h
  | cons b l' => simp [List.getLast?_cons_cons]

theorem dropLast_cons_of_ne_nil {α : Type} (a : α) (l : List α) (h : l ≠ []) :
    (a :: l).dropLast = a :: l.dropLast := by
  cases l with
  | nil => exact absurd rfl h
  | cons b l' => rfl

/-- C9: adding an article to a history of exactly 50 articles prepends the
new metadata, removes exactly the oldest (last, by insertion order)
metadata record, leaves exactly 50 records, and deletes the oldest
article's binary-asset record (the new article's assets having been
stored); a history of fewer than 50 articles evicts nothing. -/
theorem addArticleToHistory_spec (st : HistoryState) (meta : ArticleMeta)
    (images : ImageRecord) :
    (∀ oldest, st.articles.length = 50 → st.articles.getLast? = some oldest →
      (addArticleToHistory st meta images).articles = meta :: st.articles.dropLast ∧
      (addArticleToHistory st meta images).articles.length = 50 ∧
      (addArticleToHistory st meta images).imageDb =
        assocDelete (assocSet st.imageDb meta.id images) oldest.id ∧
      (meta.id ≠ oldest.id →
        assocGet (addArticleToHistory st meta images).imageDb oldest.id = none ∧
        assocGet (addArticleToHistory st meta images).imageDb meta.id = some images)) ∧
    (st.articles.length < 50 →
      (addArticleToHistory st meta images).articles = meta :: st.articles ∧
      (addArticleToHistory st meta images).imageDb = assocSet st.imageDb meta.id images) := by
  constructor
  · intro oldest h50 hlast
    have hne : st.articles ≠ [] := by
      intro h
      rw [h] at h50
      simp at h50
    have hlast' : (meta :: st.articles).getLast? = some oldest := by
      rw [getLast?_cons_of_ne_nil meta st.articles hne]
      exact hlast
    unfold addArticleToHistory
    rw [if_pos (by simp only [List.length_cons, h50]; omega), hlast']
    try dsimp only
    refine ⟨dropLast_cons_of_ne_nil meta st.articles hne, ?_, rfl, ?_⟩
    · rw [dropLast_cons_of_ne_nil meta st.articles hne]
      simp [List.length_dropLast, h50]
    · intro hne2
      refine ⟨assocGet_delete_self _ _, ?_⟩
      rw [assocGet_delete_ne _ _ _ hne2]
      exact assocGet_set_self _ _ _
  · intro hlt
    unfold addArticleToHistory
    rw [if_neg (by simp only [List.length_cons]; omega)]
    exact ⟨rfl, rfl⟩

/-- Witness for C9: a concrete 50-article history; adding a 51st article
leaves exactly 50 metadata records and the evicted oldest article's
binary-asset record is gone while the new one's is present. -/
theorem addArticleToHistory_spec_witness :
    (addArticleToHistory sampleHistoryState ⟨100, "new"⟩ ⟨none, []⟩).articles.length = 50 ∧
    assocGet (addArticleToHistory sampleHistoryState ⟨100, "new"⟩ ⟨none, []⟩).imageDb 49 =
      none ∧
    assocGet (addArticleToHistory sampleHistoryState ⟨100, "new"⟩ ⟨none, []⟩).imageDb 100 =
      some ⟨none, []⟩ := by
  have h := (addArticleToHistory_spec sampleHistoryState ⟨100, "new"⟩ ⟨none, []⟩).1
    ⟨49, "t"⟩ (by decide) (by decide)
  exact ⟨h.2.1, (h.2.2.2 (by decide)).1, (h.2.2.2 (by decide)).2⟩

/- ### C7: creative-direction failure policy -/

/-- C7 (counterexample to the claim): the claim says a direction-stage
failure yields an article with no creative-direction metadata, but the
module variable `selectedDirection` is never reset when a new run starts
(written at src/index.tsx:1166, cleared only by the back-to-outlines button
at src/index.tsx:433).  So after an earlier run chose a direction, a
direction-stage failure in the next run falls into the catch branch
(src/index.tsx:1143-1146) and `finalizeArticle` (src/index.tsx:1692)
attaches the stale direction: the pipeline does proceed to assembly, but
the assembled article's `creativeDirection` is present, not absent. -/
theorem creativeDirectionFailure_stale_counterexample :
    handleDirectionStage 7 cexUserInput (some staleDirection) (.error "boom")
        "md" [] [] [] =
      .assembled (generateArticleAssemblyLine 7 cexUserInput
        (some staleDirection) "md" [] [] []) ∧
    (generateArticleAssemblyLine 7 cexUserInput (some staleDirection)
        "md" [] [] []).creativeDirection = some staleDirection ∧
    some staleDirection ≠ (none : Option CreativeDirection) := by
  exact ⟨rfl, rfl, Option.some_ne_none staleDirection⟩

/- ### C8: markup-cache discipline -/

/-- C8: both markdown-replacing operations (save-edit and proofread) clear
the cached markup in the same update record they persist, both preserve the
cache invariant, and the only cache-filling step (in `renderArticle`) fills
it with exactly the rendering of the current markdown — so the cache,
whenever present, is the deterministic rendering of the current markdown
body. -/
theorem markupCache_discipline (render : String → String) (a : ArticleHistoryItem)
    (m : String) (p : Option String) :
    (saveEditUpdate a m p).html = "" ∧
    (proofreadUpdate a m).html = "" ∧
    markupCacheInv render (saveEditUpdate a m p) ∧
    markupCacheInv render (proofreadUpdate a m) ∧
    (markupCacheInv render a → markupCacheInv render (renderArticleCacheStep render a)) := by
  refine ⟨rfl, rfl, fun h => absurd rfl h, fun h => absurd rfl h, ?_⟩
  intro hinv
  unfold markupCacheInv renderArticleCacheStep
  by_cases h : a.html = ""
  · rw [if_pos h]
    intro _
    rfl
  · rw [if_neg h]
    exact hinv

/-- Witness for C8: on a concrete article with an empty cache, save-edit
leaves the cache cleared and the render step establishes the invariant. -/
theorem markupCache_discipline_witness :
    (saveEditUpdate sampleArticle "new md" none).html = "" ∧
    markupCacheInv id (renderArticleCacheStep id sampleArticle) := by
  have h := markupCache_discipline id sampleArticle "new md" none
  exact ⟨h.1, h.2.2.2.2 (fun hh => absurd rfl hh)⟩

/- ### C1: hallucination filter -/

theorem tryMatchLink_not_lbracket {c : Char} (cs : List Char) (hc : c ≠ '[') :
    tryMatchLink (c :: cs) = none := by
  rw [tryMatchLink, if_neg hc]

theorem stripHttp_https (r : List Char) : stripHttp (httpsLit ++ r) = some (httpsLit, r) := by
  unfold stripHttp
  rw [stripLit_append]

theorem stripLit_https_of_http (r : List Char) :
    stripLit httpsLit (httpLit ++ r) = none := by
  simp [httpsLit, httpLit, stripLit]

theorem stripHttp_http (r : List Char) : stripHttp (httpLit ++ r) = some (httpLit, r) := by
  unfold stripHttp
  rw [stripLit_https_of_http]
  try dsimp only
  rw [stripLit_append]

theorem tryMatchUrl_eq {s proto s4 : List Char} (hs : stripHttp s = some (proto, s4))
    {t0 : Char} {ts suf : List Char}
    (hta : s4.takeWhile isUrlChar = t0 :: ts) (hdr : s4.dropWhile isUrlChar = ')' :: suf) :
    tryMatchUrl s = some (proto ++ t0 :: ts, suf) := by
  unfold tryMatchUrl
  rw [hs]
  try dsimp only
  rw [hta, hdr]
  try dsimp only
  rw [if_pos rfl]

theorem tryMatchLink_at (text tail suf proto : List Char)
    (ht0 : text ≠ []) (ht : ∀ c ∈ text, isLinkTextChar c = true)
    (hproto : proto = httpsLit ∨ proto = httpLit)
    (htail0 : tail ≠ []) (htail : ∀ c ∈ tail, isUrlChar c = true) :
    tryMatchLink ('[' :: (text ++ ']' :: '(' :: (proto ++ (tail ++ ')' :: suf)))) =
      some (text, proto ++ tail, suf) := by
  obtain ⟨t0, ts, rfl⟩ : ∃ t0 ts, text = t0 :: ts := by
    cases text with
    | nil => exact absurd rfl ht0
    | cons a b => exact ⟨a, b, rfl⟩
  obtain ⟨u0, us, rfl⟩ : ∃ u0 us, tail = u0 :: us := by
    cases tail with
    | nil => exact absurd rfl htail0
    | cons a b => exact ⟨a, b, rfl⟩
  have hsplit := takeWhile_dropWhile_split (p := isLinkTextChar) (t0 :: ts) ']'
    ('(' :: (proto ++ (u0 :: us ++ ')' :: suf))) ht (by decide)
  have husplit := takeWhile_dropWhile_split (p := isUrlChar) (u0 :: us) ')' suf
    htail (by decide)
  have hstrip : stripHttp (proto ++ (u0 :: us ++ ')' :: suf)) =
      some (proto, u0 :: us ++ ')' :: suf) := by
    rcases hproto with rfl | rfl
    · exact stripHttp_https _
    · exact stripHttp_http _
  have hurl := tryMatchUrl_eq hstrip
    (by simpa using husplit.1) (by simpa using husplit.2)
  rw [tryMatchLink, if_pos rfl]
  rw [hsplit.1, hsplit.2]
  try dsimp only
  rw [if_pos ⟨rfl, rfl⟩, hurl]

/-- C1: for every grounding-URI set `G` and every markdown of the form
`pre ++ [text](url) ++ suf` (with `pre` free of `[`, a nonempty anchor text
without `]`, and a well-formed `http(s)` url), the hallucination filter
keeps the link unchanged iff `url ∈ G`; otherwise the whole link is
replaced by exactly its anchor text, and the surrounding text is processed
exactly as it is without the link. -/
theorem removeHallucinatedLinks_spec (G : List (List Char))
    (pre text tail proto suf : List Char)
    (hpre : '[' ∉ pre) (ht0 : text ≠ []) (ht : ∀ c ∈ text, isLinkTextChar c = true)
    (hproto : proto = httpsLit ∨ proto = httpLit) (htail0 : tail ≠ [])
    (htail : ∀ c ∈ tail, isUrlChar c = true) :
    removeHallucinatedLinks G (pre ++ mdLink text (proto ++ tail) ++ suf) =
      pre ++ (if proto ++ tail ∈ G then mdLink text (proto ++ tail) else text) ++
        removeHallucinatedLinks G suf := by
  induction pre with
  | nil =>
    have hm : mdLink text (proto ++ tail) ++ suf =
        '[' :: (text ++ ']' :: '(' :: (proto ++ (tail ++ ')' :: suf))) := by
      simp [mdLink]
    simp only [List.nil_append]
    rw [hm, removeHallucinatedLinks,
      tryMatchLink_at text tail suf proto ht0 ht hproto htail0 htail]
  | cons c pre ih =>
    simp only [List.mem_cons, not_or] at hpre
    have hc : c ≠ '[' := fun h => hpre.1 h.symm
    simp only [List.cons_append]
    rw [removeHallucinatedLinks, tryMatchLink_not_lbracket _ hc]
    rw [show (pre ++ mdLink text (proto ++ tail) ++ suf) =
      pre ++ (mdLink text (proto ++ tail) ++ suf) from by simp] at *
    rw [ih hpre.2]

theorem removeHallucinatedLinks_no_lbracket (G : List (List Char)) :
    ∀ s : List Char, '[' ∉ s → removeHallucinatedLinks G s = s := by
  intro s
  induction s with
  | nil =>
    intro _
    rw [removeHallucinatedLinks]
  | cons c cs ih =>
    intro h
    simp only [List.mem_cons, not_or] at h
    rw [removeHallucinatedLinks, tryMatchLink_not_lbracket _ (fun hh => h.1 hh.symm)]
    try dsimp only
    rw [ih h.2]

/-- Witness for C1: the spec's scenario B shape — a link to a uri absent
from the grounding set is demoted to exactly its anchor text while the
surrounding text is untouched. -/
theorem removeHallucinatedLinks_spec_witness :
    removeHallucinatedLinks [("https://known.example/a").data]
        (("See ").data ++ mdLink (("Y").data) (httpsLit ++ ("unknown.example/b").data) ++
          (" ok").data) =
      ("See Y ok").data := by
  have h := removeHallucinatedLinks_spec [("https://known.example/a").data]
    (("See ").data) (("Y").data) (("unknown.example/b").data) httpsLit ((" ok").data)
    (by decide) (by decide) (by decide) (Or.inl rfl) (by decide) (by decide)
  rw [h, if_neg (by decide), removeHallucinatedLinks_no_lbracket _ _ (by decide)]
  decide

/- ### C4: chart-placeholder error handling -/

theorem tryMatchChart_not_lbracket {c : Char} (cs : List Char) (hc : c ≠ '[') :
    tryMatchChart (c :: cs) = none := by
  unfold tryMatchChart
  have h : stripLit chartTagLit (c :: cs) = none := by
    simp [chartTagLit, stripLit, hc]
  rw [h]

theorem tryMatchChart_at (payload suf : List Char)
    (hpay : ∀ c ∈ payload, notRBracket c = true) :
    tryMatchChart (chartTagLit ++ (payload ++ ']' :: suf)) = some (payload, suf) := by
  unfold tryMatchChart
  rw [stripLit_append]
  try dsimp only
  have hs := takeWhile_dropWhile_split (p := notRBracket) payload ']' suf hpay (by decide)
  rw [hs.2]
  try dsimp only
  rw [hs.1]

theorem replaceChartPlaceholders_split (pre payload suf : List Char)
    (hpre : '[' ∉ pre) (hpay : ']' ∉ payload) :
    replaceChartPlaceholders (pre ++ chartTagLit ++ (payload ++ ']' :: suf)) =
      pre ++ (if jsonParses payload then chartContainerDiv payload else chartErrorDiv) ++
        replaceChartPlaceholders suf := by
  have hpay' : ∀ c ∈ payload, notRBracket c = true := by
    intro c hc
    simp only [notRBracket, bne_iff_ne, ne_eq]
    intro h
    rw [h] at hc
    exact hpay hc
  induction pre with
  | nil =>
    have hm : chartTagLit ++ (payload ++ ']' :: suf) =
        '[' :: (("INTERACTIVE_CHART:").data ++ (payload ++ ']' :: suf)) := rfl
    have hmatch := tryMatchChart_at payload suf hpay'
    rw [hm] at hmatch
    simp only [List.nil_append]
    rw [hm, replaceChartPlaceholders, hmatch]
  | cons c pre ih =>
    simp only [List.mem_cons, not_or] at hpre
    have hc : c ≠ '[' := fun h => hpre.1 h.symm
    simp only [List.cons_append]
    rw [replaceChartPlaceholders, tryMatchChart_not_lbracket _ hc]
    rw [show (pre ++ chartTagLit ++ (payload ++ ']' :: suf)) =
      pre ++ (chartTagLit ++ (payload ++ ']' :: suf)) from by simp] at *
    rw [ih hpre.2]

theorem replaceChartPlaceholders_no_lbracket :
    ∀ s : List Char, '[' ∉ s → replaceChartPlaceholders s = s := by
  intro s
  induction s with
  | nil =>
    intro _
    rw [replaceChartPlaceholders]
  | cons c cs ih =>
    intro h
    simp only [List.mem_cons, not_or] at h
    rw [replaceChartPlaceholders, tryMatchChart_not_lbracket _ (fun hh => h.1 hh.symm)]
    try dsimp only
    rw [ih h.2]

/-- C4 (amended): for every markdown of the form
`pre ++ [INTERACTIVE_CHART: ++ payload ++ ] ++ suf` with `pre` free of `[`
and a payload free of `]`, the chart pass replaces the placeholder in place
by a single inline error element when the payload does not parse as JSON
(and by the chart container when it does), never fails, and processes the
surrounding text exactly as it is without the placeholder.  (For a payload
containing `]`, the match stops at the first `]` — see the counterexample.) -/
theorem replaceChartPlaceholders_spec (pre payload suf : List Char)
    (hpre : '[' ∉ pre) (hpay : ']' ∉ payload) :
    replaceChartPlaceholders (pre ++ chartTagLit ++ (payload ++ ']' :: suf)) =
      pre ++ (if jsonParses payload then chartContainerDiv payload else chartErrorDiv) ++
        replaceChartPlaceholders suf :=
  replaceChartPlaceholders_split pre payload suf hpre hpay

/-- Counterexample for C4 as stated: for the spec's own example class of
malformed chart JSON (missing comma inside an array, so the payload
contains `]`), the pass does not replace the whole placeholder in place by
a single error element: the lazy capture stops at the first `]`, and the
placeholder remainder is left in the document, so the output differs from
an in-place replacement of the full placeholder. -/
theorem replaceChartPlaceholders_claim_counterexample :
    jsonParses cexChartPayload = false ∧
    replaceChartPlaceholders (chartTagLit ++ (cexChartPayload ++ [']'])) ≠ chartErrorDiv ∧
    replaceChartPlaceholders (chartTagLit ++ (cexChartPayload ++ [']'])) =
      chartErrorDiv ++ ("\x7d]").data := by
  have hre : chartTagLit ++ (cexChartPayload ++ [']']) =
      [] ++ chartTagLit ++ ((("\x7b\"a\":[1 2").data) ++ ']' :: ("\x7d]").data) := by
    decide
  have h := replaceChartPlaceholders_split [] (("\x7b\"a\":[1 2").data) (("\x7d]").data)
    (by decide) (by decide)
  rw [hre, h, if_neg (by decide), replaceChartPlaceholders_no_lbracket _ (by decide)]
  refine ⟨by decide, by decide, by decide⟩

/-- Witness for C4 (amended): a concrete malformed `]`-free payload inside
surrounding text yields exactly one inline error element in place of the
matched placeholder, with the surrounding text intact. -/
theorem replaceChartPlaceholders_spec_witness :
    replaceChartPlaceholders
        (("pre ").data ++ chartTagLit ++ (("oops").data ++ ']' :: (" post").data)) =
      ("pre ").data ++ chartErrorDiv ++ (" post").data := by
  have h := replaceChartPlaceholders_spec (("pre ").data) (("oops").data) ((" post").data)
    (by decide) (by decide)
  rw [h, if_neg (by decide), replaceChartPlaceholders_no_lbracket _ (by decide)]

/- ### C2/C10 helper lemmas: hex digits and percent escapes -/

theorem hexUpperVal_hexUpperDigit : ∀ m, m < 16 → hexUpperVal (hexUpperDigit m) = some m := by
  decide

theorem hexAnyVal_hexLowerDigit : ∀ m, m < 16 → hexAnyVal (hexLowerDigit m) = some m := by
  decide

theorem b64CharVal_b64Char : ∀ n, n < 64 → b64CharVal (b64Char n) = some n := by
  decide

theorem char_toNat_valid (c : Char) :
    c.toNat < 55296 ∨ (57344 ≤ c.toNat ∧ c.toNat < 1114112) := by
  have h := c.valid
  simp [UInt32.isValidChar, Nat.isValidChar, Char.toNat] at h ⊢
  exact h

theorem char_toNat_lt (c : Char) : c.toNat < 1114112 := by
  rcases char_toNat_valid c with h | h <;> omega

theorem utf8EncodeChar_lt (n : Nat) (hn : n < 1114112) :
    ∀ b ∈ utf8EncodeChar n, b < 256 := by
  intro b hb
  unfold utf8EncodeChar at hb
  by_cases h1 : n < 128
  · rw [if_pos h1] at hb
    simp at hb
    omega
  · rw [if_neg h1] at hb
    by_cases h2 : n < 2048
    · rw [if_pos h2] at hb
      simp at hb
      rcases hb with rfl | rfl <;> omega
    · rw [if_neg h2] at hb
      by_cases h3 : n < 65536
      · rw [if_pos h3] at hb
        simp at hb
        rcases hb with rfl | rfl | rfl <;> omega
      · rw [if_neg h3] at hb
        simp at hb
        rcases hb with rfl | rfl | rfl | rfl <;> omega

theorem utf8Encode_lt (s : List Char) : ∀ b ∈ utf8Encode s, b < 256 := by
  intro b hb
  unfold utf8Encode at hb
  obtain ⟨c, _, hbc⟩ := List.mem_flatMap.mp hb
  exact utf8EncodeChar_lt c.toNat (char_toNat_lt c) b hbc

theorem percentToBytes_cons_lit (c : Char) (t : List Char) (hc : c ≠ '%') :
    percentToBytes (c :: t) = c.toNat :: percentToBytes t := by
  match t with
  | [] => rfl
  | [x] => rfl
  | x :: y :: rest =>
    rw [percentToBytes, if_neg hc]

theorem percentToBytes_escape (b : Nat) (hb : b < 256) (t : List Char) :
    percentToBytes (percentEscape b ++ t) = b :: percentToBytes t := by
  have h1 := hexUpperVal_hexUpperDigit (b / 16) (by omega)
  have h2 := hexUpperVal_hexUpperDigit (b % 16) (by omega)
  simp only [percentEscape, List.cons_append, List.nil_append]
  rw [percentToBytes, if_pos rfl, h1, h2]
  try dsimp only
  rw [show 16 * (b / 16) + b % 16 = b from by omega]

theorem percentToBytes_escapes (bs : List Nat) (hbs : ∀ b ∈ bs, b < 256) (t : List Char) :
    percentToBytes (bs.flatMap percentEscape ++ t) = bs ++ percentToBytes t := by
  induction bs with
  | nil => simp
  | cons b bs ih =>
    rw [List.flatMap_cons, List.append_assoc, percentToBytes_escape b (hbs b (by simp)) _]
    rw [ih (fun x hx => hbs x (by simp [hx]))]
    rfl

theorem isUnreservedChar_facts (c : Char) (h : isUnreservedChar c = true) :
    c.toNat < 128 ∧ c.toNat ≠ 37 := by
  simp only [isUnreservedChar, Bool.or_eq_true, Bool.and_eq_true, decide_eq_true_eq] at h
  omega

theorem utf8EncodeChar_ascii (n : Nat) (h : n < 128) : utf8EncodeChar n = [n] := by
  unfold utf8EncodeChar
  rw [if_pos h]

theorem char_ne_percent (c : Char) (h : c.toNat ≠ 37) : c ≠ '%' := by
  intro hh
  rw [hh] at h
  exact h rfl

theorem encodeURIComponent_bytes (s : List Char) :
    percentToBytes (encodeURIComponent s) = utf8Encode s := by
  induction s with
  | nil => rfl
  | cons c s ih =>
    unfold encodeURIComponent utf8Encode at ih ⊢
    rw [List.flatMap_cons, List.flatMap_cons]
    by_cases h : isUnreservedChar c
    · obtain ⟨hlt, hne⟩ := isUnreservedChar_facts c h
      rw [if_pos h, List.singleton_append,
        percentToBytes_cons_lit c _ (char_ne_percent c hne), ih,
        utf8EncodeChar_ascii c.toNat hlt, List.singleton_append]
    · rw [if_neg h,
        percentToBytes_escapes _ (utf8EncodeChar_lt c.toNat (char_toNat_lt c)) _, ih]

/- ### C2/C10 helper lemmas: forgiving base64 round trip -/

theorem chunk3Induction {P : List Nat → Prop} (h0 : P []) (h1 : ∀ a, P [a])
    (h2 : ∀ a b, P [a, b]) (h3 : ∀ a b c l, P l → P (a :: b :: c :: l)) :
    ∀ l, P l
  | [] => h0
  | [a] => h1 a
  | [a, b] => h2 a b
  | a :: b :: c :: l => h3 a b c l (chunk3Induction h0 h1 h2 h3 l)

theorem b64Char_mem (n : Nat) : b64Char n ∈ b64Alphabet := by
  unfold b64Char
  rcases lt_or_ge n b64Alphabet.length with h | h
  · rw [List.getD_eq_getElem _ _ h]
    exact List.getElem_mem h
  · rw [List.getD_eq_default _ _ h]
    decide

theorem b64Alphabet_not_ws : ∀ c ∈ b64Alphabet, isB64Ws c = false := by decide

theorem b64Alphabet_ne_eq : ∀ c ∈ b64Alphabet, c ≠ '=' := by decide

theorem btoaBytes_eq_core_pad : ∀ bs, btoaBytes bs = b64core bs ++ padOf bs := by
  refine chunk3Induction rfl (fun a => rfl) (fun a b => rfl) ?_
  intro a b c l ih
  show btoaBytes (a :: b :: c :: l) = b64core (a :: b :: c :: l) ++ padOf (a :: b :: c :: l)
  rw [btoaBytes, b64core, padOf, ih]
  simp

theorem padOf_cases : ∀ bs, padOf bs = [] ∨ padOf bs = ['='] ∨ padOf bs = ['=', '='] := by
  refine chunk3Induction (Or.inl rfl) (fun a => Or.inr (Or.inr rfl))
    (fun a b => Or.inr (Or.inl rfl)) ?_
  intro a b c l ih
  rw [padOf]
  exact ih

theorem b64core_mem : ∀ bs, ∀ c ∈ b64core bs, c ∈ b64Alphabet := by
  refine chunk3Induction ?_ ?_ ?_ ?_
  · intro c hc
    simp [b64core] at hc
  · intro a c hc
    rw [b64core] at hc
    rcases List.mem_cons.mp hc with rfl | hc
    · exact b64Char_mem _
    · rcases List.mem_cons.mp hc with rfl | hc
      · exact b64Char_mem _
      · simp at hc
  · intro a b c hc
    rw [b64core] at hc
    rcases List.mem_cons.mp hc with rfl | hc
    · exact b64Char_mem _
    · rcases List.mem_cons.mp hc with rfl | hc
      · exact b64Char_mem _
      · rcases List.mem_cons.mp hc with rfl | hc
        · exact b64Char_mem _
        · simp at hc
  · intro a b c l ih x hx
    rw [b64core] at hx
    rcases List.mem_cons.mp hx with rfl | hx
    · exact b64Char_mem _
    · rcases List.mem_cons.mp hx with rfl | hx
      · exact b64Char_mem _
      · rcases List.mem_cons.mp hx with rfl | hx
        · exact b64Char_mem _
        · rcases List.mem_cons.mp hx with rfl | hx
          · exact b64Char_mem _
          · exact ih x hx

theorem btoaBytes_filter (bs : List Nat) :
    (btoaBytes bs).filter (fun c => !(isB64Ws c)) = btoaBytes bs := by
  rw [List.filter_eq_self]
  intro c hc
  rw [btoaBytes_eq_core_pad] at hc
  rcases List.mem_append.mp hc with h | h
  · have := b64Alphabet_not_ws c (b64core_mem bs c h)
    simp [this]
  · rcases padOf_cases bs with hp | hp | hp <;> rw [hp] at h <;> simp at h <;>
      (rw [h]; decide)

theorem btoaBytes_len_mod : ∀ bs, (btoaBytes bs).length % 4 = 0 := by
  refine chunk3Induction rfl (fun a => by simp [btoaBytes]) (fun a b => by simp [btoaBytes]) ?_
  intro a b c l ih
  rw [btoaBytes]
  simp only [List.length_cons]
  omega

theorem b64core_len_mod : ∀ bs,
    (b64core bs).length % 4 = 0 ∨ (b64core bs).length % 4 = 2 ∨
      (b64core bs).length % 4 = 3 := by
  refine chunk3Induction (Or.inl rfl) (fun a => Or.inr (Or.inl rfl))
    (fun a b => Or.inr (Or.inr rfl)) ?_
  intro a b c l ih
  rw [b64core]
  simp only [List.length_cons]
  omega

theorem dropOneEq_no_eq (x : List Char) (hx : ∀ c ∈ x, c ≠ '=') : dropOneEq x = x := by
  unfold dropOneEq
  rw [if_neg]
  intro hcon
  cases hg : x.getLast? with
  | none => rw [hg] at hcon; exact Option.noConfusion hcon
  | some c =>
    rw [hg] at hcon
    have hc : c ∈ x := List.mem_of_mem_getLast? hg
    exact hx c hc (Option.some_inj.mp hcon)

theorem dropOneEq_concat_eq (x : List Char) : dropOneEq (x ++ ['=']) = x := by
  unfold dropOneEq
  rw [List.getLast?_concat, if_pos rfl, List.dropLast_concat]

theorem dropPad_core_pad (x pad : List Char) (hx : ∀ c ∈ x, c ≠ '=')
    (hp : pad = [] ∨ pad = ['='] ∨ pad = ['=', '=']) : dropPad (x ++ pad) = x := by
  unfold dropPad
  rcases hp with rfl | rfl | rfl
  · rw [List.append_nil, dropOneEq_no_eq x hx, dropOneEq_no_eq x hx]
  · rw [dropOneEq_concat_eq, dropOneEq_no_eq x hx]
  · rw [show x ++ ['=', '='] = (x ++ ['=']) ++ ['='] from by simp]
    rw [dropOneEq_concat_eq, dropOneEq_concat_eq]

theorem decodeChunks_core : ∀ bs, (∀ b ∈ bs, b < 256) →
    decodeChunks (b64core bs) = some bs := by
  refine chunk3Induction (fun _ => rfl) ?_ ?_ ?_
  · intro a ha
    have h := ha a (by simp)
    rw [b64core, decodeChunks]
    rw [b64CharVal_b64Char _ (by omega), b64CharVal_b64Char _ (by omega)]
    try dsimp only
    rw [show a / 4 * 4 + a % 4 * 16 / 16 = a from by omega]
  · intro a b ha
    have h1 := ha a (by simp)
    have h2 := ha b (by simp)
    rw [b64core, decodeChunks]
    rw [b64CharVal_b64Char _ (by omega), b64CharVal_b64Char _ (by omega),
      b64CharVal_b64Char _ (by omega)]
    try dsimp only
    rw [show a / 4 * 4 + (a % 4 * 16 + b / 16) / 16 = a from by omega,
      show (a % 4 * 16 + b / 16) % 16 * 16 + b % 16 * 4 / 4 = b from by omega]
  · intro a b c l ih hmem
    have h1 := hmem a (by simp)
    have h2 := hmem b (by simp)
    have h3 := hmem c (by simp)
    rw [b64core, decodeChunks]
    rw [b64CharVal_b64Char _ (by omega), b64CharVal_b64Char _ (by omega),
      b64CharVal_b64Char _ (by omega), b64CharVal_b64Char _ (by omega)]
    try dsimp only
    rw [ih (fun x hx => hmem x (by simp [hx]))]
    try dsimp only
    rw [show a / 4 * 4 + (a % 4 * 16 + b / 16) / 16 = a from by omega,
      show (a % 4 * 16 + b / 16) % 16 * 16 + (b % 16 * 4 + c / 64) / 4 = b from by omega,
      show (b % 16 * 4 + c / 64) % 4 * 64 + c % 64 = c from by omega]
    rfl

theorem atob_btoaBytes (bs : List Nat) (hbs : ∀ b ∈ bs, b < 256) :
    atob (btoaBytes bs) = some bs := by
  unfold atob
  rw [btoaBytes_filter, if_pos (btoaBytes_len_mod bs)]
  rw [btoaBytes_eq_core_pad,
    dropPad_core_pad _ _ (fun c hc => b64Alphabet_ne_eq c (b64core_mem bs c hc))
      (padOf_cases bs)]
  unfold atobStripped
  rw [if_neg (by rcases b64core_len_mod bs with h | h | h <;> omega)]
  exact decodeChunks_core bs hbs

/- ### C2/C10 helper lemmas: strict UTF-8 decoding of the escape string -/

theorem byteToPercent_head (b : Nat) (t : List Char) :
    byteToPercent b ++ t = '%' :: (hexLowerDigit (b / 16 % 16) :: hexLowerDigit (b % 16) :: t) :=
  rfl

theorem uriTokens_byteToPercent (b : Nat) (hb : b < 256) (t : List Char) :
    uriTokens (byteToPercent b ++ t) =
      Option.map (fun ts => Sum.inl b :: ts) (uriTokens t) := by
  rw [byteToPercent_head, uriTokens, if_pos rfl]
  try dsimp only
  rw [hexAnyVal_hexLowerDigit (b / 16 % 16) (by omega),
    hexAnyVal_hexLowerDigit (b % 16) (by omega)]
  try dsimp only
  rw [show 16 * (b / 16 % 16) + b % 16 = b from by omega]

theorem uriTokens_bytes (bs : List Nat) (hbs : ∀ b ∈ bs, b < 256) (t : List Char) :
    uriTokens (bs.flatMap byteToPercent ++ t) =
      Option.map (fun ts => bs.map Sum.inl ++ ts) (uriTokens t) := by
  induction bs with
  | nil =>
    simp only [List.flatMap_nil, List.nil_append, List.map_nil]
    cases uriTokens t <;> rfl
  | cons b bs ih =>
    rw [List.flatMap_cons, List.append_assoc, uriTokens_byteToPercent b (hbs b (by simp)) _,
      ih (fun x hx => hbs x (by simp [hx]))]
    cases uriTokens t <;> rfl

theorem contTok_length {ts : List (Nat ⊕ Char)} {b : Nat} {ts2 : List (Nat ⊕ Char)}
    (h : contTok ts = some (b, ts2)) : ts2.length + 1 = ts.length := by
  match ts with
  | [] => simp [contTok] at h
  | Sum.inr c :: ts' => simp [contTok] at h
  | Sum.inl b' :: ts' =>
    rw [contTok] at h
    split at h
    · simp only [Option.some_inj, Prod.mk.injEq] at h
      obtain ⟨-, h2⟩ := h
      subst h2
      simp
    · exact Option.noConfusion h

theorem utf8DecodeTokensGo_fuel : ∀ f1 f2 ts, ts.length < f1 → ts.length < f2 →
    utf8DecodeTokensGo f1 ts = utf8DecodeTokensGo f2 ts := by
  intro f1
  induction f1 with
  | zero =>
    intro f2 ts h1 _
    exact absurd h1 (Nat.not_lt_zero _)
  | succ k1 ih =>
    intro f2 ts h1 h2
    cases f2 with
    | zero => exact absurd h2 (Nat.not_lt_zero _)
    | succ k2 =>
      cases ts with
      | nil => rfl
      | cons tok ts' =>
        simp only [List.length_cons] at h1 h2
        cases tok with
        | inr c =>
          rw [utf8DecodeTokensGo, utf8DecodeTokensGo, ih k2 ts' (by omega) (by omega)]
        | inl b1 =>
          rw [utf8DecodeTokensGo, utf8DecodeTokensGo]
          by_cases hb1 : b1 < 128
          · rw [if_pos hb1, if_pos hb1, ih k2 ts' (by omega) (by omega)]
          · rw [if_neg hb1, if_neg hb1]
            by_cases hb2 : 194 ≤ b1 ∧ b1 < 224
            · rw [if_pos hb2, if_pos hb2]
              cases hc : contTok ts' with
              | none => rfl
              | some p =>
                obtain ⟨b2, ts2⟩ := p
                have hl := contTok_length hc
                try dsimp only
                rw [ih k2 ts2 (by omega) (by omega)]
            · rw [if_neg hb2, if_neg hb2]
              by_cases hb3 : 224 ≤ b1 ∧ b1 < 240
              · rw [if_pos hb3, if_pos hb3]
                cases hc : contTok ts' with
                | none => rfl
                | some p =>
                  obtain ⟨b2, ts2⟩ := p
                  have hl := contTok_length hc
                  try dsimp only
                  cases hc2 : contTok ts2 with
                  | none => rfl
                  | some p2 =>
                    obtain ⟨b3, ts3⟩ := p2
                    have hl2 := contTok_length hc2
                    try dsimp only
                    rw [ih k2 ts3 (by omega) (by omega)]
              · rw [if_neg hb3, if_neg hb3]
                by_cases hb4 : 240 ≤ b1 ∧ b1 < 245
                · rw [if_pos hb4, if_pos hb4]
                  cases hc : contTok ts' with
                  | none => rfl
                  | some p =>
                    obtain ⟨b2, ts2⟩ := p
                    have hl := contTok_length hc
                    try dsimp only
                    cases hc2 : contTok ts2 with
                    | none => rfl
                    | some p2 =>
                      obtain ⟨b3, ts3⟩ := p2
                      have hl2 := contTok_length hc2
                      try dsimp only
                      cases hc3 : contTok ts3 with
                      | none => rfl
                      | some p3 =>
                        obtain ⟨b4, ts4⟩ := p3
                        have hl3 := contTok_length hc3
                        try dsimp only
                        rw [ih k2 ts4 (by omega) (by omega)]
                · rw [if_neg hb4, if_neg hb4]

theorem utf8DecodeTokens_chunk (n : Nat) (hv : n < 55296 ∨ (57344 ≤ n ∧ n < 1114112))
    (ts : List (Nat ⊕ Char)) :
    utf8DecodeTokens ((utf8EncodeChar n).map Sum.inl ++ ts) =
      Option.map (fun r => Char.ofNat n :: r) (utf8DecodeTokens ts) := by
  unfold utf8DecodeTokens
  by_cases h1 : n < 128
  · rw [utf8EncodeChar, if_pos h1]
    simp only [List.map_cons, List.map_nil, List.cons_append, List.nil_append,
      List.length_cons]
    rw [utf8DecodeTokensGo, if_pos h1]
  · by_cases h2 : n < 2048
    · rw [utf8EncodeChar, if_neg h1, if_pos h2]
      simp only [List.map_cons, List.map_nil, List.cons_append, List.nil_append,
        List.length_cons]
      rw [utf8DecodeTokensGo, if_neg (by omega),
        if_pos (by omega : 194 ≤ 192 + n / 64 ∧ 192 + n / 64 < 224)]
      rw [contTok, if_pos (by omega : 128 ≤ 128 + n % 64 ∧ 128 + n % 64 < 192)]
      try dsimp only
      rw [show (192 + n / 64 - 192) * 64 + (128 + n % 64 - 128) = n from by omega]
      exact congrArg (Option.map fun r => Char.ofNat n :: r)
        (utf8DecodeTokensGo_fuel _ _ ts (by omega) (by omega))
    · by_cases h3 : n < 65536
      · rw [utf8EncodeChar, if_neg h1, if_neg h2, if_pos h3]
        simp only [List.map_cons, List.map_nil, List.cons_append, List.nil_append,
          List.length_cons]
        rw [utf8DecodeTokensGo, if_neg (by omega), if_neg (by omega),
          if_pos (by omega : 224 ≤ 224 + n / 4096 ∧ 224 + n / 4096 < 240)]
        rw [contTok, if_pos (by omega : 128 ≤ 128 + n / 64 % 64 ∧ 128 + n / 64 % 64 < 192)]
        try dsimp only
        rw [contTok, if_pos (by omega : 128 ≤ 128 + n % 64 ∧ 128 + n % 64 < 192)]
        try dsimp only
        rw [show (224 + n / 4096 - 224) * 4096 + (128 + n / 64 % 64 - 128) * 64 +
          (128 + n % 64 - 128) = n from by omega]
        rw [if_pos (by
          constructor
          · omega
          · rcases hv with h | h <;> omega)]
        exact congrArg (Option.map fun r => Char.ofNat n :: r)
          (utf8DecodeTokensGo_fuel _ _ ts (by omega) (by omega))
      · have h4 : n < 1114112 := by rcases hv with h | h <;> omega
        rw [utf8EncodeChar, if_neg h1, if_neg h2, if_neg h3]
        simp only [List.map_cons, List.map_nil, List.cons_append, List.nil_append,
          List.length_cons]
        rw [utf8DecodeTokensGo, if_neg (by omega), if_neg (by omega), if_neg (by omega),
          if_pos (by omega : 240 ≤ 240 + n / 262144 ∧ 240 + n / 262144 < 245)]
        rw [contTok,
          if_pos (by omega : 128 ≤ 128 + n / 4096 % 64 ∧ 128 + n / 4096 % 64 < 192)]
        try dsimp only
        rw [contTok, if_pos (by omega : 128 ≤ 128 + n / 64 % 64 ∧ 128 + n / 64 % 64 < 192)]
        try dsimp only
        rw [contTok, if_pos (by omega : 128 ≤ 128 + n % 64 ∧ 128 + n % 64 < 192)]
        try dsimp only
        rw [show (240 + n / 262144 - 240) * 262144 + (128 + n / 4096 % 64 - 128) * 4096 +
          (128 + n / 64 % 64 - 128) * 64 + (128 + n % 64 - 128) = n from by omega]
        rw [if_pos (by omega : 65536 ≤ n ∧ n < 1114112)]
        exact congrArg (Option.map fun r => Char.ofNat n :: r)
          (utf8DecodeTokensGo_fuel _ _ ts (by omega) (by omega))

theorem utf8DecodeTokens_utf8Encode (s : List Char) :
    utf8DecodeTokens ((utf8Encode s).map Sum.inl) = some s := by
  induction s with
  | nil => rfl
  | cons c s ih =>
    unfold utf8Encode at ih ⊢
    rw [List.flatMap_cons, List.map_append,
      utf8DecodeTokens_chunk c.toNat (char_toNat_valid c) _, ih]
    simp [Char.ofNat_toNat]

theorem decodeURI_utf8 (s : List Char) :
    decodeURIComponentChars ((utf8Encode s).flatMap byteToPercent) = some s := by
  have h1 : uriTokens ((utf8Encode s).flatMap byteToPercent) =
      some ((utf8Encode s).map Sum.inl) := by
    have h := uriTokens_bytes (utf8Encode s) (utf8Encode_lt s) []
    simpa [uriTokens] using h
  unfold decodeURIComponentChars
  rw [h1]
  try dsimp only
  exact utf8DecodeTokens_utf8Encode s

/-- C2: the placeholder-key codec round-trips: for every string (as a list
of Unicode scalar values, non-ASCII included), decoding the encoding
returns the original string — hence every keyed placeholder element emitted
by the renderer carries a key whose decoding reproduces the exact source
placeholder substring. -/
theorem decodeUnicode_encodeUnicode (s : List Char) :
    decodeUnicode (encodeUnicode s) = s := by
  unfold decodeUnicode encodeUnicode
  rw [encodeURIComponent_bytes, atob_btoaBytes _ (utf8Encode_lt s)]
  try dsimp only
  rw [decodeURI_utf8 s]

/-- C10: `decodeUnicode` is total in the embedding and on every decoding
failure — the base64 decode rejecting the input, or the percent/UTF-8
decode rejecting the byte sequence — it returns the input unchanged;
otherwise it returns the decoded string. -/
theorem decodeUnicode_total (s : List Char) :
    (atob s = none → decodeUnicode s = s) ∧
    (∀ bytes, atob s = some bytes →
      decodeURIComponentChars (bytes.flatMap byteToPercent) = none →
      decodeUnicode s = s) ∧
    (∀ bytes r, atob s = some bytes →
      decodeURIComponentChars (bytes.flatMap byteToPercent) = some r →
      decodeUnicode s = r) := by
  refine ⟨?_, ?_, ?_⟩
  · intro h
    unfold decodeUnicode
    rw [h]
  · intro bytes h1 h2
    unfold decodeUnicode
    rw [h1]
    try dsimp only
    rw [h2]
  · intro bytes r h1 h2
    unfold decodeUnicode
    rw [h1]
    try dsimp only
    rw [h2]

/-- Witness for C10: a non-base64 input (`"!"`) and a valid-base64 input
decoding to an invalid UTF-8 byte (`"/w=="`, the byte 0xFF) are both
returned unchanged. -/
theorem decodeUnicode_total_witness :
    atob (("!").data) = none ∧
    decodeUnicode (("!").data) = ("!").data ∧
    atob (("/w==").data) = some [255] ∧
    decodeURIComponentChars (([255] : List Nat).flatMap byteToPercent) = none ∧
    decodeUnicode (("/w==").data) = ("/w==").data := by
  refine ⟨by decide, (decodeUnicode_total _).1 (by decide), by decide, by decide,
    (decodeUnicode_total _).2.1 [255] (by decide) (by decide)⟩

end ArticleArchitect
